import Mathlib

/-!
Verification of the asynq storage core: the journal codec and key scheme,
the remote journal store reconstruction (`fetch_remote_filesystem` /
`list_files` / `create_file` / `remove_file` in `s3.rs`), the generic
two-way `StorageSyncer.sync` (`sync.rs`), and the local backend's
`create_dir` (`local.rs`).  The Rust code is shallowly embedded: the S3
bucket is a key list plus a GET oracle, randomness (UUIDs) and the clock
are explicit parameters, and the bincode wire format is modelled as a
fixed-width little-endian length-prefixed byte code.
-/

namespace Asynq

/-- Error kinds, from `aqfs.rs` (`enum Error`). -/
inductive Error where
  | Unexpected (msg : String)
  | NotImplemented
  | RusotoFail (msg : String)
  | SerdeFail (msg : String)
deriving DecidableEq, Repr

/-- `aqfs::Path`: a sequence of path segments. -/
structure Path where
  elms : List String
deriving DecidableEq, Repr

/-- A UTC timestamp (`chrono::DateTime<Utc>`), split into the calendar
fields that `%Y%m%d%H%M%S%f` renders. -/
structure Timestamp where
  year : Nat
  month : Nat
  day : Nat
  hour : Nat
  minute : Nat
  second : Nat
  nano : Nat
deriving DecidableEq, Repr

/-- `aqfs::FileMeta`. -/
structure FileMeta where
  path : Path
  mtime : Timestamp
deriving DecidableEq, Repr

/-- `s3.rs` `enum Journal`: the operation variants of a journal record. -/
inductive Journal where
  | CreateFile (meta : FileMeta) (key : String)
  | RemoveFile (meta : FileMeta)
deriving DecidableEq, Repr

/-- `s3.rs` `struct JournalRecord`. -/
structure JournalRecord where
  journal : Journal
  timestamp : Timestamp
  key : String
deriving DecidableEq, Repr

/-- `s3.rs` `struct JournalFile`: one journal segment, an ordered record list. -/
structure JournalFile where
  records : List JournalRecord
deriving DecidableEq, Repr

/-! ### The journal segment codec

`s3.rs` serializes a `JournalFile` with `bincode::serialize` and reads it
back with `bincode::deserialize`.  We model bincode's fixint format:
sequences are length-prefixed with a little-endian u64, enum variants are
tagged with a little-endian u32, and characters are written as 4-byte
little-endian code points. -/

/-- `w` bytes of `n`, little-endian. -/
def toLE : Nat → Nat → List Nat
  | 0, _ => []
  | w + 1, n => n % 256 :: toLE w (n / 256)

/-- Value of a little-endian byte list. -/
def fromLE : List Nat → Nat
  | [] => 0
  | b :: bs => b + 256 * fromLE bs

def encChar (c : Char) : List Nat := toLE 4 c.toNat

def encString (s : String) : List Nat :=
  toLE 8 s.length ++ (s.data.map encChar).flatten

def encTimestamp (t : Timestamp) : List Nat :=
  toLE 8 t.year ++ toLE 8 t.month ++ toLE 8 t.day ++ toLE 8 t.hour ++
    toLE 8 t.minute ++ toLE 8 t.second ++ toLE 8 t.nano

def encPath (p : Path) : List Nat :=
  toLE 8 p.elms.length ++ (p.elms.map encString).flatten

def encMeta (m : FileMeta) : List Nat :=
  encPath m.path ++ encTimestamp m.mtime

def encJournal : Journal → List Nat
  | .CreateFile m k => toLE 4 0 ++ encMeta m ++ encString k
  | .RemoveFile m => toLE 4 1 ++ encMeta m

def encRecord (r : JournalRecord) : List Nat :=
  encJournal r.journal ++ encTimestamp r.timestamp ++ encString r.key

/-- `bincode::serialize` of a segment. -/
def encJournalFile (jf : JournalFile) : List Nat :=
  toLE 8 jf.records.length ++ (jf.records.map encRecord).flatten

/-- Take exactly `w` bytes from the input. -/
def readBytes : Nat → List Nat → Option (List Nat × List Nat)
  | 0, l => some ([], l)
  | _ + 1, [] => none
  | w + 1, b :: l =>
    match readBytes w l with
    | none => none
    | some (bs, rest) => some (b :: bs, rest)

def readU64 (l : List Nat) : Option (Nat × List Nat) :=
  match readBytes 8 l with
  | none => none
  | some (bs, rest) => some (fromLE bs, rest)

def readChar (l : List Nat) : Option (Char × List Nat) :=
  match readBytes 4 l with
  | none => none
  | some (bs, rest) => some (Char.ofNat (fromLE bs), rest)

/-- Run the element decoder `d` a given number of times. -/
def readMany {α : Type} (d : List Nat → Option (α × List Nat)) :
    Nat → List Nat → Option (List α × List Nat)
  | 0, l => some ([], l)
  | n + 1, l =>
    match d l with
    | none => none
    | some (a, l1) =>
      match readMany d n l1 with
      | none => none
      | some (xs, l2) => some (a :: xs, l2)

def readString (l : List Nat) : Option (String × List Nat) :=
  match readU64 l with
  | none => none
  | some (n, l1) =>
    match readMany readChar n l1 with
    | none => none
    | some (cs, l2) => some (String.mk cs, l2)

def readTimestamp (l : List Nat) : Option (Timestamp × List Nat) :=
  match readU64 l with
  | none => none
  | some (y, l1) =>
    match readU64 l1 with
    | none => none
    | some (mo, l2) =>
      match readU64 l2 with
      | none => none
      | some (d, l3) =>
        match readU64 l3 with
        | none => none
        | some (h, l4) =>
          match readU64 l4 with
          | none => none
          | some (mi, l5) =>
            match readU64 l5 with
            | none => none
            | some (s, l6) =>
              match readU64 l6 with
              | none => none
              | some (ns, l7) => some (⟨y, mo, d, h, mi, s, ns⟩, l7)

def readPath (l : List Nat) : Option (Path × List Nat) :=
  match readU64 l with
  | none => none
  | some (n, l1) =>
    match readMany readString n l1 with
    | none => none
    | some (es, l2) => some (⟨es⟩, l2)

def readMeta (l : List Nat) : Option (FileMeta × List Nat) :=
  match readPath l with
  | none => none
  | some (p, l1) =>
    match readTimestamp l1 with
    | none => none
    | some (t, l2) => some (⟨p, t⟩, l2)

def readJournal (l : List Nat) : Option (Journal × List Nat) :=
  match readBytes 4 l with
  | none => none
  | some (tag, l1) =>
    if fromLE tag = 0 then
      match readMeta l1 with
      | none => none
      | some (m, l2) =>
        match readString l2 with
        | none => none
        | some (k, l3) => some (.CreateFile m k, l3)
    else if fromLE tag = 1 then
      match readMeta l1 with
      | none => none
      | some (m, l2) => some (.RemoveFile m, l2)
    else none

def readRecord (l : List Nat) : Option (JournalRecord × List Nat) :=
  match readJournal l with
  | none => none
  | some (j, l1) =>
    match readTimestamp l1 with
    | none => none
    | some (t, l2) =>
      match readString l2 with
      | none => none
      | some (k, l3) => some (⟨j, t, k⟩, l3)

/-- `bincode::deserialize` of a segment (trailing bytes are tolerated, as
bincode 1.x's top-level `deserialize` does). -/
def decodeJournalFile (l : List Nat) : Option (JournalFile × List Nat) :=
  match readU64 l with
  | none => none
  | some (n, l1) =>
    match readMany readRecord n l1 with
    | none => none
    | some (rs, l2) => some (⟨rs⟩, l2)

/-! Well-formedness: every length and numeric field fits the width the
wire format gives it.  True of any segment the Rust process can hold in
memory. -/

def wfString (s : String) : Bool := s.length < 2 ^ 64

def wfTimestamp (t : Timestamp) : Bool :=
  decide (t.year < 2 ^ 64) && decide (t.month < 2 ^ 64) && decide (t.day < 2 ^ 64) &&
    decide (t.hour < 2 ^ 64) && decide (t.minute < 2 ^ 64) && decide (t.second < 2 ^ 64) &&
    decide (t.nano < 2 ^ 64)

def wfPath (p : Path) : Bool :=
  decide (p.elms.length < 2 ^ 64) && p.elms.all wfString

def wfMeta (m : FileMeta) : Bool := wfPath m.path && wfTimestamp m.mtime

def wfJournal : Journal → Bool
  | .CreateFile m k => wfMeta m && wfString k
  | .RemoveFile m => wfMeta m

def wfRecord (r : JournalRecord) : Bool :=
  wfJournal r.journal && wfTimestamp r.timestamp && wfString r.key

def wfJournalFile (jf : JournalFile) : Bool :=
  decide (jf.records.length < 2 ^ 64) && jf.records.all wfRecord

/-! ### The remote store (`s3.rs`)

The bucket is modelled as the list of keys the injected client's
`list_objects_v2` reports plus a GET oracle: `get k` is the outcome of
fetching object `k` over the network (a `RusotoFail` models a failed
fetch).  `put_object` registers the key and makes subsequent GETs of it
succeed with the stored body. -/

structure S3 where
  keys : List String
  get : String → Except Error (List Nat)

def put_object (s : S3) (k : String) (v : List Nat) : S3 where
  keys := if k ∈ s.keys then s.keys else s.keys ++ [k]
  get := fun q => if q = k then .ok v else s.get q

/-- `s3::File`: meta plus the content key the lazy reader is bound to. -/
structure SFile where
  meta : FileMeta
  key : String
deriving DecidableEq, Repr

/-- `File::read_all`: GET the content object at the bound key. -/
def read_all (s : S3) (f : SFile) : Except Error (List Nat) := s.get f.key

/-- `p.data.isPrefixOf q.data`: the S3 `LIST(prefix)` key filter. -/
def strStarts (p q : String) : Bool := p.data.isPrefixOf q.data

/-- Keys the `list_objects_v2("journal/")` call returns. -/
def journalKeys (s : S3) : List String := s.keys.filter (strStarts "journal/")

/-- `journal_objects.sort_by_key(|o| o.key)`: replay order. -/
def sortedJournalKeys (s : S3) : List String :=
  List.insertionSort (· ≤ ·) (journalKeys s)

/-- GET one segment object and `bincode::deserialize` it. -/
def getAndDecode (s : S3) (k : String) : Except Error JournalFile :=
  match s.get k with
  | .error e => .error e
  | .ok bytes =>
    match decodeJournalFile bytes with
    | some (jf, _) => .ok jf
    | none => .error (.SerdeFail "invalid journal segment")

/-- `try_join_all` over the per-segment fetches: all-or-nothing. -/
def fetchAll (s : S3) : List String → Except Error (List JournalFile)
  | [] => .ok []
  | k :: ks =>
    match getAndDecode s k with
    | .error e => .error e
    | .ok jf =>
      match fetchAll s ks with
      | .error e => .error e
      | .ok jfs => .ok (jf :: jfs)

/-- The reconstructed `HashMap<Path, File>`, as an association list with
unique keys. -/
def insertFs : List (Path × SFile) → Path → SFile → List (Path × SFile)
  | [], p, f => [(p, f)]
  | (q, g) :: rest, p, f =>
    if q = p then (p, f) :: rest else (q, g) :: insertFs rest p f

def eraseFs : List (Path × SFile) → Path → List (Path × SFile)
  | [], _ => []
  | (q, g) :: rest, p =>
    if q = p then eraseFs rest p else (q, g) :: eraseFs rest p

def lookupFs : List (Path × SFile) → Path → Option SFile
  | [], _ => none
  | (q, g) :: rest, p => if q = p then some g else lookupFs rest p

/-- One step of the reconstruction fold (`match rec.journal` in
`fetch_remote_filesystem`). -/
def stepRecord (fs : List (Path × SFile)) (r : JournalRecord) : List (Path × SFile) :=
  match r.journal with
  | .CreateFile meta key => insertFs fs meta.path ⟨meta, key⟩
  | .RemoveFile meta => eraseFs fs meta.path

/-- Concatenate the per-segment record lists in segment order. -/
def allRecords (jfs : List JournalFile) : List JournalRecord :=
  (jfs.map JournalFile.records).flatten

/-- Fold the concatenated journal into the path map. -/
def replay (recs : List JournalRecord) : List (Path × SFile) :=
  recs.foldl stepRecord []

/-- `Storage::fetch_remote_filesystem`. -/
def fetch_remote_filesystem (s : S3) : Except Error (List (Path × SFile)) :=
  match fetchAll s (sortedJournalKeys s) with
  | .error e => .error e
  | .ok jfs => .ok (replay (allRecords jfs))

/-- `Storage::list_files`: the map's values. -/
def list_files (s : S3) : Except Error (List SFile) :=
  match fetch_remote_filesystem s with
  | .error e => .error e
  | .ok fs => .ok (fs.map Prod.snd)

/-! ### Key minting

`create_file` and `remove_file` mint `format!("journal/{}-{}",
timestamp.format("%Y%m%d%H%M%S%f"), Uuid::new_v4())` segment keys and
`format!("data/{}", Uuid::new_v4())` content keys.  The clock value and
the random ids are explicit parameters of the model.  `%Y%m%d%H%M%S%f`
is each calendar field rendered as a zero-padded fixed-width decimal
(year 4 digits, nanoseconds 9 digits). -/

/-- The `w` decimal digits of `n`, most significant first. -/
def digitsBE : Nat → Nat → List Nat
  | 0, _ => []
  | w + 1, n => n / 10 ^ w :: digitsBE w (n % 10 ^ w)

/-- Zero-padded fixed-width decimal rendering. -/
def padDec (w n : Nat) : List Char := (digitsBE w n).map Nat.digitChar

/-- `timestamp.format("%Y%m%d%H%M%S%f")`. -/
def tsString (t : Timestamp) : String :=
  String.mk (padDec 4 t.year ++ (padDec 2 t.month ++ (padDec 2 t.day ++ (padDec 2 t.hour ++
    (padDec 2 t.minute ++ (padDec 2 t.second ++ padDec 9 t.nano))))))

/-- A freshly minted segment key. -/
def mintJournalKey (t : Timestamp) (id : String) : String :=
  "journal/" ++ tsString t ++ "-" ++ id

/-- A freshly minted content key. -/
def mintDataKey (id : String) : String := "data/" ++ id

/-- `Storage::create_file`: PUT the content under a fresh `data/` key,
then PUT a single-record `CreateFile` segment under a fresh journal key. -/
def create_file (s : S3) (meta : FileMeta) (content : List Nat) (t : Timestamp)
    (contentId segId : String) : S3 :=
  let dataKey := mintDataKey contentId
  let s1 := put_object s dataKey content
  let journalKey := mintJournalKey t segId
  put_object s1 journalKey (encJournalFile ⟨[⟨.CreateFile meta dataKey, t, journalKey⟩]⟩)

/-- `Storage::remove_file`: PUT a single-record `RemoveFile` segment;
nothing is checked and nothing is deleted. -/
def remove_file (s : S3) (meta : FileMeta) (t : Timestamp) (segId : String) : S3 :=
  let journalKey := mintJournalKey t segId
  put_object s journalKey (encJournalFile ⟨[⟨.RemoveFile meta, t, journalKey⟩]⟩)

/-! ### The spec's view of reconstruction

These definitions follow the specification's words ("the last record
naming that path"), to be compared with the fold above. -/

/-- The path a record names. -/
def recordPath (r : JournalRecord) : Path :=
  match r.journal with
  | .CreateFile m _ => m.path
  | .RemoveFile m => m.path

/-- The last record in `recs` naming `p`, if any. -/
def lastRecordNaming (p : Path) (recs : List JournalRecord) : Option JournalRecord :=
  recs.reverse.find? (fun r => recordPath r = p)

/-- Modelled from the spec: a path is present iff the last record naming
it is a `CreateFile`, and then carries that record's meta and content
key. -/
def specViewFile (p : Path) (recs : List JournalRecord) : Option SFile :=
  match lastRecordNaming p recs with
  | some r =>
    match r.journal with
    | .CreateFile m k => some ⟨m, k⟩
    | .RemoveFile _ => none
  | none => none

/-! ### Backends behind the capability contract, and the syncer (`sync.rs`)

`StorageSyncer::sync` only uses `list_files` and `create_file` of its two
backends, on files exposing `meta` and `read_all`.  A file crossing the
contract is its meta plus the outcome of reading it. -/

instance {ε α : Type} [DecidableEq ε] [DecidableEq α] : DecidableEq (Except ε α) := fun x y =>
  match x, y with
  | .ok a, .ok b =>
    if h : a = b then isTrue (by rw [h]) else isFalse (fun hh => h (Except.ok.inj hh))
  | .error a, .error b =>
    if h : a = b then isTrue (by rw [h]) else isFalse (fun hh => h (Except.error.inj hh))
  | .ok _, .error _ => isFalse (fun hh => Except.noConfusion hh)
  | .error _, .ok _ => isFalse (fun hh => Except.noConfusion hh)

/-- A file as the contract exposes it: `meta()` plus the result
`read_all()` would produce. -/
structure MFile where
  meta : FileMeta
  content : Except Error (List Nat)
deriving DecidableEq, Repr

/-- A backend as `sync` sees it: `StorageEntity`, restricted to the two
methods `sync` calls, over explicit state `σ`. -/
structure StorageModel (σ : Type) where
  list_files : σ → Except Error (List MFile)
  create_file : σ → MFile → Except Error σ

/-- `aqfs::RamFile`. -/
structure RamFile where
  meta : FileMeta
  data : List Nat
deriving DecidableEq, Repr

/-- `aqfs::RamStorage`: a `HashMap<Path, RamFile>`, as an association
list with unique keys. -/
def ramInsert : List (Path × RamFile) → Path → RamFile → List (Path × RamFile)
  | [], p, f => [(p, f)]
  | (q, g) :: rest, p, f =>
    if q = p then (p, f) :: rest else (q, g) :: ramInsert rest p f

/-- The `StorageEntity` impl of `RamStorage` (`list_files` returns the
stored files; `create_file` reads the argument and upserts at its
meta's path). -/
def ramModel : StorageModel (List (Path × RamFile)) where
  list_files := fun r => .ok (r.map fun e => ⟨e.2.meta, .ok e.2.data⟩)
  create_file := fun r f =>
    match f.content with
    | .error e => .error e
    | .ok c => .ok (ramInsert r f.meta.path ⟨f.meta, c⟩)

/-- One draw of `Utc::now()` and the two `Uuid::new_v4()` calls a journal
mutation makes. -/
structure Mint where
  ts : Timestamp
  contentId : String
  segId : String

/-- The remote store together with its clock/randomness supply. -/
structure S3Run where
  s3 : S3
  supply : Nat → Mint
  idx : Nat

/-- The `StorageEntity` impl of the journal-backed `s3::Storage`. -/
def s3Model : StorageModel S3Run where
  list_files := fun r =>
    match fetch_remote_filesystem r.s3 with
    | .error e => .error e
    | .ok fs => .ok (fs.map fun e => ⟨e.2.meta, read_all r.s3 e.2⟩)
  create_file := fun r f =>
    match f.content with
    | .error e => .error e
    | .ok c =>
      let m := r.supply r.idx
      .ok ⟨create_file r.s3 f.meta c m.ts m.contentId m.segId, r.supply, r.idx + 1⟩

/-- The calls `sync` makes, in order. -/
inductive SyncCall where
  | toSt1 (f : MFile)
  | toSt0 (f : MFile)
deriving DecidableEq

/-- One pass of `sync`: `for f in files { st.create_file(f)? }`. -/
def createAll {σ : Type} (st : StorageModel σ) : σ → List MFile → Except Error σ
  | s, [] => .ok s
  | s, f :: fs =>
    match st.create_file s f with
    | .error e => .error e
    | .ok s1 => createAll st s1 fs

/-- `StorageSyncer::sync`, instrumented with the list of `create_file`
calls it performs.  Pass 1 copies every file `st0` lists into `st1`;
pass 2 then lists `st1` (after pass 1's writes) and copies everything
back into `st0`. -/
def sync {σ0 σ1 : Type} (st0 : StorageModel σ0) (st1 : StorageModel σ1) (s0 : σ0) (s1 : σ1) :
    Except Error (σ0 × σ1 × List SyncCall) :=
  match st0.list_files s0 with
  | .error e => .error e
  | .ok fs0 =>
    match createAll st1 s1 fs0 with
    | .error e => .error e
    | .ok s1a =>
      match st1.list_files s1a with
      | .error e => .error e
      | .ok fs1 =>
        match createAll st0 s0 fs1 with
        | .error e => .error e
        | .ok s0a => .ok (s0a, s1a, fs0.map SyncCall.toSt1 ++ fs1.map SyncCall.toSt0)

/-- `local.rs` `Storage::create_dir`: unconditionally
`Err(Error::NotImplemented)`. -/
def local_create_dir (_meta : FileMeta) : Except Error Unit :=
  .error .NotImplemented

/-- Chronological order on the calendar fields. -/
def Timestamp.before (a b : Timestamp) : Prop :=
  a.year < b.year ∨ (a.year = b.year ∧ (a.month < b.month ∨ (a.month = b.month ∧
    (a.day < b.day ∨ (a.day = b.day ∧ (a.hour < b.hour ∨ (a.hour = b.hour ∧
      (a.minute < b.minute ∨ (a.minute = b.minute ∧ (a.second < b.second ∨
        (a.second = b.second ∧ a.nano < b.nano)))))))))))

/-- Each calendar field fits the width `%Y%m%d%H%M%S%f` gives it. -/
def tsBounded (t : Timestamp) : Prop :=
  t.year < 10 ^ 4 ∧ t.month < 10 ^ 2 ∧ t.day < 10 ^ 2 ∧ t.hour < 10 ^ 2 ∧
    t.minute < 10 ^ 2 ∧ t.second < 10 ^ 2 ∧ t.nano < 10 ^ 9

/-- Invariant of the reconstruction map: keys are distinct, and every
stored file sits at its own meta's path. -/
def goodFs (fs : List (Path × SFile)) : Prop :=
  (fs.map Prod.fst).Nodup ∧ ∀ e ∈ fs, e.2.meta.path = e.1

/-- `r` holds, at key `p`, a file whose own meta names `p`. -/
def ramHas (r : List (Path × RamFile)) (p : Path) : Prop :=
  ∃ g, (p, g) ∈ r ∧ g.meta.path = p

instance (a b : Timestamp) : Decidable (Timestamp.before a b) := by
  unfold Timestamp.before; infer_instance

instance (t : Timestamp) : Decidable (tsBounded t) := by
  unfold tsBounded; infer_instance

/-- The path-to-meta mapping a `list_files` result denotes. -/
def pathMeta (l : List SFile) (p : Path) : Option FileMeta :=
  (l.find? (fun f => decide (f.meta.path = p))).map SFile.meta

/-! Concrete sample objects used to exercise the theorems on closed
inputs. -/

def sampleTs : Timestamp := ⟨2020, 1, 2, 3, 4, 5, 6⟩

def sampleMeta : FileMeta := ⟨⟨["a"]⟩, sampleTs⟩

def sampleSeg : JournalFile :=
  ⟨[⟨.CreateFile sampleMeta "data/d0", sampleTs, "journal/k0"⟩]⟩

def sampleS3 : S3 := ⟨["journal/k0"], fun _ => .ok (encJournalFile sampleSeg)⟩

def sampleRun : S3Run := ⟨sampleS3, fun _ => ⟨⟨2021, 1, 1, 0, 0, 0, 0⟩, "c0", "s0"⟩, 0⟩

def sampleFs0 : List MFile := [⟨sampleMeta, .ok (encJournalFile sampleSeg)⟩]

def emptyS3 : S3 := ⟨[], fun _ => .error (.RusotoFail "no such key")⟩

/-! ### Lemmas -/

/-! ### Codec round-trip lemmas -/

theorem toLE_length (w n : Nat) : (toLE w n).length = w := by
  induction w generalizing n with
  | zero => rfl
  | succ w ih => simp [toLE, ih]

theorem fromLE_toLE (w n : Nat) (h : n < 256 ^ w) : fromLE (toLE w n) = n := by
  induction w generalizing n with
  | zero =>
    have : n = 0 := Nat.lt_one_iff.mp (by simpa using h)
    simp [this, toLE, fromLE]
  | succ w ih =>
    have hdiv : n / 256 < 256 ^ w := by
      rw [Nat.div_lt_iff_lt_mul (by norm_num)]
      calc n < 256 ^ (w + 1) := h
        _ = 256 ^ w * 256 := by ring
    simp [toLE, fromLE, ih _ hdiv, Nat.mod_add_div]

theorem readBytes_append (xs rest : List Nat) :
    readBytes xs.length (xs ++ rest) = some (xs, rest) := by
  induction xs with
  | nil => rfl
  | cons b bs ih => simp [readBytes, ih]

theorem readU64_enc (n : Nat) (h : n < 2 ^ 64) (rest : List Nat) :
    readU64 (toLE 8 n ++ rest) = some (n, rest) := by
  have hl : (toLE 8 n).length = 8 := toLE_length 8 n
  have hb : readBytes 8 (toLE 8 n ++ rest) = some (toLE 8 n, rest) := by
    rw [← hl]; exact readBytes_append _ _
  have hv : fromLE (toLE 8 n) = n := fromLE_toLE 8 n (by norm_num at h ⊢; exact h)
  simp [readU64, hb, hv]

theorem readChar_enc (c : Char) (rest : List Nat) :
    readChar (encChar c ++ rest) = some (c, rest) := by
  have hl : (toLE 4 c.toNat).length = 4 := toLE_length 4 c.toNat
  have hb : readBytes 4 (toLE 4 c.toNat ++ rest) = some (toLE 4 c.toNat, rest) := by
    rw [← hl]; exact readBytes_append _ _
  have hlt : c.toNat < 256 ^ 4 := by
    have := c.val.toNat_lt
    simpa [Char.toNat] using this.trans_le (by norm_num)
  have hv : fromLE (toLE 4 c.toNat) = c.toNat := fromLE_toLE 4 c.toNat hlt
  simp [readChar, encChar, hb, hv, Char.ofNat_toNat]

theorem readMany_enc {α : Type} (d : List Nat → Option (α × List Nat)) (enc : α → List Nat)
    (xs : List α) (h : ∀ x ∈ xs, ∀ rest, d (enc x ++ rest) = some (x, rest)) (rest : List Nat) :
    readMany d xs.length ((xs.map enc).flatten ++ rest) = some (xs, rest) := by
  induction xs with
  | nil => rfl
  | cons x xs ih =>
    have hx := h x (by simp)
    have hxs : ∀ y ∈ xs, ∀ r, d (enc y ++ r) = some (y, r) := fun y hy => h y (by simp [hy])
    simp only [List.map_cons, List.flatten_cons, List.append_assoc, List.length_cons, readMany,
      hx (((xs.map enc).flatten ++ rest)), ih hxs]

theorem readString_enc (s : String) (h : wfString s = true) (rest : List Nat) :
    readString (encString s ++ rest) = some (s, rest) := by
  obtain ⟨cs⟩ := s
  have hlen : cs.length < 2 ^ 64 := by simpa [wfString, String.length] using h
  have h8 : readU64 (toLE 8 cs.length ++ ((cs.map encChar).flatten ++ rest)) =
      some (cs.length, (cs.map encChar).flatten ++ rest) := readU64_enc _ hlen _
  have hm : readMany readChar cs.length ((cs.map encChar).flatten ++ rest) =
      some (cs, rest) :=
    readMany_enc readChar encChar cs (fun c _ => readChar_enc c) rest
  simp only [readString, encString, String.length_mk, List.append_assoc, h8, hm]

theorem readTimestamp_enc (t : Timestamp) (h : wfTimestamp t = true) (rest : List Nat) :
    readTimestamp (encTimestamp t ++ rest) = some (t, rest) := by
  simp only [wfTimestamp, Bool.and_eq_true, decide_eq_true_eq] at h
  obtain ⟨⟨⟨⟨⟨⟨h1, h2⟩, h3⟩, h4⟩, h5⟩, h6⟩, h7⟩ := h
  simp only [readTimestamp, encTimestamp, List.append_assoc,
    readU64_enc _ h1 _, readU64_enc _ h2 _, readU64_enc _ h3 _, readU64_enc _ h4 _,
    readU64_enc _ h5 _, readU64_enc _ h6 _, readU64_enc _ h7 _]

theorem readPath_enc (p : Path) (h : wfPath p = true) (rest : List Nat) :
    readPath (encPath p ++ rest) = some (p, rest) := by
  simp only [wfPath, Bool.and_eq_true, decide_eq_true_eq, List.all_eq_true] at h
  obtain ⟨hn, he⟩ := h
  have hm : readMany readString p.elms.length ((p.elms.map encString).flatten ++ rest) =
      some (p.elms, rest) :=
    readMany_enc readString encString p.elms (fun e hmem r => readString_enc e (he e hmem) r) rest
  simp only [readPath, encPath, List.append_assoc, readU64_enc _ hn _, hm]

theorem readMeta_enc (m : FileMeta) (h : wfMeta m = true) (rest : List Nat) :
    readMeta (encMeta m ++ rest) = some (m, rest) := by
  simp only [wfMeta, Bool.and_eq_true] at h
  simp only [readMeta, encMeta, List.append_assoc, readPath_enc m.path h.1 _,
    readTimestamp_enc m.mtime h.2 _]

theorem fromLE_tag0 : fromLE (toLE 4 0) = 0 := by decide

theorem fromLE_tag1 : fromLE (toLE 4 1) = 1 := by decide

theorem readJournal_enc (j : Journal) (h : wfJournal j = true) (rest : List Nat) :
    readJournal (encJournal j ++ rest) = some (j, rest) := by
  cases j with
  | CreateFile m k =>
    simp only [wfJournal, Bool.and_eq_true] at h
    have hb : readBytes 4 (toLE 4 0 ++ (encMeta m ++ (encString k ++ rest))) =
        some (toLE 4 0, encMeta m ++ (encString k ++ rest)) := by
      rw [← toLE_length 4 0]; exact readBytes_append _ _
    simp only [readJournal, encJournal, List.append_assoc, hb, fromLE_tag0, if_pos rfl,
      readMeta_enc m h.1 _, readString_enc k h.2 _]
    simp
  | RemoveFile m =>
    simp only [wfJournal] at h
    have hb : readBytes 4 (toLE 4 1 ++ (encMeta m ++ rest)) =
        some (toLE 4 1, encMeta m ++ rest) := by
      rw [← toLE_length 4 1]; exact readBytes_append _ _
    simp only [readJournal, encJournal, List.append_assoc, hb, fromLE_tag1]
    norm_num [readMeta_enc m h rest]

theorem readRecord_enc (r : JournalRecord) (h : wfRecord r = true) (rest : List Nat) :
    readRecord (encRecord r ++ rest) = some (r, rest) := by
  simp only [wfRecord, Bool.and_eq_true] at h
  obtain ⟨⟨h1, h2⟩, h3⟩ := h
  simp only [readRecord, encRecord, List.append_assoc, readJournal_enc r.journal h1 _,
    readTimestamp_enc r.timestamp h2 _, readString_enc r.key h3 _]

theorem decode_encode_append (jf : JournalFile) (h : wfJournalFile jf = true)
    (rest : List Nat) : decodeJournalFile (encJournalFile jf ++ rest) = some (jf, rest) := by
  simp only [wfJournalFile, Bool.and_eq_true, decide_eq_true_eq, List.all_eq_true] at h
  obtain ⟨hn, hr⟩ := h
  have hm : readMany readRecord jf.records.length ((jf.records.map encRecord).flatten ++ rest) =
      some (jf.records, rest) :=
    readMany_enc readRecord encRecord jf.records (fun r hmem s => readRecord_enc r (hr r hmem) s)
      rest
  simp only [decodeJournalFile, encJournalFile, List.append_assoc, readU64_enc _ hn _, hm]


/-! ### Lemmas: the reconstruction map -/

theorem lookupFs_insertFs (fs : List (Path × SFile)) (q p : Path) (f : SFile) :
    lookupFs (insertFs fs q f) p = if p = q then some f else lookupFs fs p := by
  induction fs with
  | nil =>
    by_cases h : p = q
    · subst h; simp [insertFs, lookupFs]
    · simp [insertFs, lookupFs, h, Ne.symm h]
  | cons e rest ih =>
    obtain ⟨r, g⟩ := e
    simp only [insertFs]
    by_cases hq : r = q
    · subst hq
      by_cases hp : p = r
      · subst hp; simp [lookupFs]
      · simp [lookupFs, hp, Ne.symm hp]
    · rw [if_neg hq]
      by_cases hp : r = p
      · subst hp
        simp [lookupFs, hq]
      · simp [lookupFs, hp, ih]

theorem lookupFs_eraseFs (fs : List (Path × SFile)) (q p : Path) :
    lookupFs (eraseFs fs q) p = if p = q then none else lookupFs fs p := by
  induction fs with
  | nil => simp [eraseFs, lookupFs]
  | cons e rest ih =>
    obtain ⟨r, g⟩ := e
    simp only [eraseFs]
    by_cases hq : r = q
    · subst hq
      by_cases hp : p = r
      · subst hp; simp [lookupFs, ih]
      · simp [lookupFs, hp, Ne.symm hp, ih]
    · rw [if_neg hq]
      by_cases hp : r = p
      · subst hp
        simp [lookupFs, hq]
      · simp [lookupFs, hp, ih]

theorem lookupFs_foldl (recs : List JournalRecord) (init : List (Path × SFile)) (p : Path) :
    lookupFs (recs.foldl stepRecord init) p =
      match recs.reverse.find? (fun r => decide (recordPath r = p)) with
      | some r =>
        match r.journal with
        | .CreateFile m k => some ⟨m, k⟩
        | .RemoveFile _ => none
      | none => lookupFs init p := by
  induction recs generalizing init with
  | nil => simp
  | cons r recs ih =>
    rw [List.foldl_cons, ih (stepRecord init r), List.reverse_cons, List.find?_append]
    cases hfind : recs.reverse.find? (fun r => decide (recordPath r = p)) with
    | some x => simp [Option.or]
    | none =>
      by_cases hr : recordPath r = p
      · cases hj : r.journal with
        | CreateFile m k =>
          have hmp : m.path = p := by simpa [recordPath, hj] using hr
          simp [Option.or, List.find?, hr, stepRecord, hj, lookupFs_insertFs, hmp]
        | RemoveFile m =>
          have hmp : m.path = p := by simpa [recordPath, hj] using hr
          simp [Option.or, List.find?, hr, stepRecord, hj, lookupFs_eraseFs, hmp]
      · cases hj : r.journal with
        | CreateFile m k =>
          have hmp : ¬m.path = p := by simpa [recordPath, hj] using hr
          simp [Option.or, List.find?, hr, stepRecord, hj, lookupFs_insertFs, Ne.symm hmp]
        | RemoveFile m =>
          have hmp : ¬m.path = p := by simpa [recordPath, hj] using hr
          simp [Option.or, List.find?, hr, stepRecord, hj, lookupFs_eraseFs, Ne.symm hmp]

/-- The fold of `fetch_remote_filesystem` computes the spec's
last-record-naming-the-path view. -/
theorem lookupFs_replay (recs : List JournalRecord) (p : Path) :
    lookupFs (replay recs) p = specViewFile p recs := by
  rw [replay, lookupFs_foldl, specViewFile, lastRecordNaming]
  cases recs.reverse.find? (fun r => decide (recordPath r = p)) with
  | some r => cases r.journal <;> rfl
  | none => rfl

/-! ### Lemmas: sorting, PUT/GET, and the all-or-nothing fetch -/

theorem sortedJournalKeys_sorted (s : S3) :
    List.Sorted (· ≤ ·) (sortedJournalKeys s) :=
  List.sorted_insertionSort (· ≤ ·) (journalKeys s)

theorem sortedJournalKeys_perm (s : S3) : List.Perm (sortedJournalKeys s) (journalKeys s) :=
  List.perm_insertionSort (· ≤ ·) (journalKeys s)

/-- Inserting a strictly larger key than everything present sorts last. -/
theorem insertionSort_append_max (l : List String) (k : String)
    (h : ∀ x ∈ l, x < k) :
    List.insertionSort (· ≤ ·) (l ++ [k]) = List.insertionSort (· ≤ ·) l ++ [k] := by
  have hperm : List.Perm (List.insertionSort (· ≤ ·) (l ++ [k]))
      (List.insertionSort (· ≤ ·) l ++ [k]) :=
    (List.perm_insertionSort (· ≤ ·) (l ++ [k])).trans
      ((List.perm_insertionSort (· ≤ ·) l).symm.append_right [k])
  have hs1 : List.Sorted (· ≤ ·) (List.insertionSort (· ≤ ·) (l ++ [k])) :=
    List.sorted_insertionSort (· ≤ ·) (l ++ [k])
  have hs2 : List.Sorted (· ≤ ·) (List.insertionSort (· ≤ ·) l ++ [k]) := by
    rw [List.Sorted, List.pairwise_append]
    refine ⟨List.sorted_insertionSort (· ≤ ·) l, List.pairwise_singleton _ _, ?_⟩
    intro a ha b hb
    rw [List.mem_singleton] at hb
    subst hb
    exact le_of_lt (h a ((List.perm_insertionSort (· ≤ ·) l).mem_iff.mp ha))
  exact List.eq_of_perm_of_sorted hperm hs1 hs2

theorem get_put_self (s : S3) (k : String) (v : List Nat) :
    (put_object s k v).get k = .ok v := by
  simp [put_object]

theorem get_put_other (s : S3) (k : String) (v : List Nat) (q : String) (h : q ≠ k) :
    (put_object s k v).get q = s.get q := by
  simp [put_object, h]

theorem keys_put_new (s : S3) (k : String) (v : List Nat) (h : k ∉ s.keys) :
    (put_object s k v).keys = s.keys ++ [k] := by
  simp [put_object, h]

theorem keys_put_mem (s : S3) (k : String) (v : List Nat) (h : k ∈ s.keys) :
    (put_object s k v).keys = s.keys := by
  simp [put_object, h]

theorem journalKeys_put_nonjournal (s : S3) (k : String) (v : List Nat)
    (h : strStarts "journal/" k = false) :
    journalKeys (put_object s k v) = journalKeys s := by
  by_cases hm : k ∈ s.keys
  · simp [journalKeys, keys_put_mem s k v hm]
  · simp [journalKeys, keys_put_new s k v hm, List.filter_append, h]

theorem journalKeys_put_journal (s : S3) (k : String) (v : List Nat)
    (hk : strStarts "journal/" k = true) (h : k ∉ s.keys) :
    journalKeys (put_object s k v) = journalKeys s ++ [k] := by
  simp [journalKeys, keys_put_new s k v h, List.filter_append, hk]

theorem mem_journalKeys (s : S3) (k : String) :
    k ∈ journalKeys s ↔ k ∈ s.keys ∧ strStarts "journal/" k = true := by
  simp [journalKeys, List.mem_filter]

theorem fetchAll_error_of_mem (s : S3) (ks : List String) (k : String) (hk : k ∈ ks)
    (h : (getAndDecode s k).isOk = false) : (fetchAll s ks).isOk = false := by
  induction ks with
  | nil => cases hk
  | cons x ks ih =>
    rcases List.mem_cons.mp hk with hx | hx
    · subst hx
      cases hg : getAndDecode s k with
      | error e => simp [fetchAll, hg, Except.isOk, Except.toBool]
      | ok jf => rw [hg] at h; simp [Except.isOk, Except.toBool] at h
    · cases hg : getAndDecode s x with
      | error e => simp [fetchAll, hg, Except.isOk, Except.toBool]
      | ok jf =>
        have := ih hx
        cases hf : fetchAll s ks with
        | error e => simp [fetchAll, hg, hf, Except.isOk, Except.toBool]
        | ok jfs => rw [hf] at this; simp [Except.isOk, Except.toBool] at this

theorem fetchAll_congr (s1 s2 : S3) (ks : List String)
    (h : ∀ k ∈ ks, getAndDecode s2 k = getAndDecode s1 k) :
    fetchAll s2 ks = fetchAll s1 ks := by
  induction ks with
  | nil => rfl
  | cons x ks ih =>
    have hx := h x (by simp)
    have hks := ih (fun k hk => h k (by simp [hk]))
    simp only [fetchAll, hx, hks]

theorem fetchAll_append_one (s : S3) (ks : List String) (k : String) (jfs : List JournalFile)
    (jf : JournalFile) (hks : fetchAll s ks = .ok jfs) (hk : getAndDecode s k = .ok jf) :
    fetchAll s (ks ++ [k]) = .ok (jfs ++ [jf]) := by
  induction ks generalizing jfs with
  | nil =>
    cases hks
    simp [fetchAll, hk]
  | cons x ks ih =>
    cases hg : getAndDecode s x with
    | error e => rw [fetchAll, hg] at hks; cases hks
    | ok jf1 =>
      rw [fetchAll, hg] at hks
      cases hf : fetchAll s ks with
      | error e => rw [hf] at hks; cases hks
      | ok jfs1 =>
        rw [hf] at hks
        cases hks
        have ih2 := ih jfs1 hf
        rw [List.cons_append]
        simp only [fetchAll, hg, ih2, List.cons_append]

theorem allRecords_append (a b : List JournalFile) :
    allRecords (a ++ b) = allRecords a ++ allRecords b := by
  simp [allRecords]

theorem replay_append (a b : List JournalRecord) :
    replay (a ++ b) = b.foldl stepRecord (replay a) := by
  simp [replay, List.foldl_append]

/-! ### Lemmas: key format and lexicographic sortability -/

theorem digitsBE_length (w n : Nat) : (digitsBE w n).length = w := by
  induction w generalizing n with
  | zero => rfl
  | succ w ih => simp [digitsBE, ih]

theorem padDec_length (w n : Nat) : (padDec w n).length = w := by
  simp [padDec, digitsBE_length]

theorem digitsBE_lt_ten (w n : Nat) (h : n < 10 ^ w) : ∀ d ∈ digitsBE w n, d < 10 := by
  induction w generalizing n with
  | zero => simp [digitsBE]
  | succ w ih =>
    intro d hd
    simp only [digitsBE, List.mem_cons] at hd
    rcases hd with h1 | h2
    · subst h1
      exact Nat.div_lt_of_lt_mul (by simpa [pow_succ] using h)
    · exact ih (n % 10 ^ w) (Nat.mod_lt _ (pow_pos (by norm_num) w)) d h2

theorem digitsBE_lex (w : Nat) : ∀ n1 n2 : Nat, n1 < n2 → n2 < 10 ^ w →
    List.Lex (· < ·) (digitsBE w n1) (digitsBE w n2) := by
  induction w with
  | zero => intro n1 n2 h12 h2; omega
  | succ w ih =>
    intro n1 n2 h12 h2
    simp only [digitsBE]
    rcases Nat.lt_or_ge (n1 / 10 ^ w) (n2 / 10 ^ w) with hd | hd
    · exact List.Lex.rel hd
    · have hdeq : n1 / 10 ^ w = n2 / 10 ^ w :=
        Nat.le_antisymm (Nat.div_le_div_right (Nat.le_of_lt h12)) hd
      rw [hdeq]
      refine List.Lex.cons (ih (n1 % 10 ^ w) (n2 % 10 ^ w) ?_ ?_)
      · have e1 := Nat.div_add_mod n1 (10 ^ w)
        have e2 := Nat.div_add_mod n2 (10 ^ w)
        rw [hdeq] at e1
        omega
      · exact Nat.mod_lt _ (pow_pos (by norm_num) w)

theorem digitChar_lt_of_lt : ∀ a < 10, ∀ b < 10, a < b → Nat.digitChar a < Nat.digitChar b := by
  decide

theorem lex_map_digitChar {d1 d2 : List Nat} (h : List.Lex (· < ·) d1 d2)
    (hb1 : ∀ a ∈ d1, a < 10) (hb2 : ∀ b ∈ d2, b < 10) :
    List.Lex (· < ·) (d1.map Nat.digitChar) (d2.map Nat.digitChar) := by
  induction h with
  | nil => exact List.Lex.nil
  | @cons a l1 l2 hl ih =>
    exact List.Lex.cons (ih (fun x hx => hb1 x (by simp [hx])) (fun x hx => hb2 x (by simp [hx])))
  | @rel a1 l1 a2 l2 hab =>
    exact List.Lex.rel
      (digitChar_lt_of_lt a1 (hb1 a1 (by simp)) a2 (hb2 a2 (by simp)) hab)

theorem padDec_lex (w n1 n2 : Nat) (h12 : n1 < n2) (h2 : n2 < 10 ^ w) :
    List.Lex (· < ·) (padDec w n1) (padDec w n2) :=
  lex_map_digitChar (digitsBE_lex w n1 n2 h12 h2)
    (digitsBE_lt_ten w n1 (h12.trans h2)) (digitsBE_lt_ten w n2 h2)

theorem lex_append_left {r : Char → Char → Prop} (pre : List Char) {l1 l2 : List Char}
    (h : List.Lex r l1 l2) : List.Lex r (pre ++ l1) (pre ++ l2) := by
  induction pre with
  | nil => exact h
  | cons c cs ih => exact List.Lex.cons ih

theorem lex_append_of_length_eq {r : Char → Char → Prop} {l1 l2 : List Char}
    (h : List.Lex r l1 l2) (hlen : l1.length = l2.length) (s1 s2 : List Char) :
    List.Lex r (l1 ++ s1) (l2 ++ s2) := by
  induction h with
  | nil => simp at hlen
  | @cons a t1 t2 hl ih => exact List.Lex.cons (ih (by simpa using hlen))
  | @rel a1 t1 a2 t2 hab => exact List.Lex.rel hab

theorem tsString_length (t : Timestamp) : (tsString t).length = 23 := by
  simp [tsString, padDec_length]

/-- Strictly later calendar timestamps render to strictly greater
`%Y%m%d%H%M%S%f` strings. -/
theorem tsString_lex (a b : Timestamp) (ha : tsBounded a) (hb : tsBounded b)
    (h : Timestamp.before a b) (s1 s2 : List Char) :
    List.Lex (· < ·) ((tsString a).data ++ s1) ((tsString b).data ++ s2) := by
  obtain ⟨ha1, ha2, ha3, ha4, ha5, ha6, ha7⟩ := ha
  obtain ⟨hb1, hb2, hb3, hb4, hb5, hb6, hb7⟩ := hb
  simp only [tsString, List.append_assoc]
  rcases h with h | ⟨e1, h⟩
  · exact lex_append_of_length_eq (padDec_lex 4 _ _ h hb1) (by simp [padDec_length]) _ _
  rw [e1]
  rcases h with h | ⟨e2, h⟩
  · exact lex_append_left _
      (lex_append_of_length_eq (padDec_lex 2 _ _ h hb2) (by simp [padDec_length]) _ _)
  rw [e2]
  rcases h with h | ⟨e3, h⟩
  · exact lex_append_left _ (lex_append_left _
      (lex_append_of_length_eq (padDec_lex 2 _ _ h hb3) (by simp [padDec_length]) _ _))
  rw [e3]
  rcases h with h | ⟨e4, h⟩
  · exact lex_append_left _ (lex_append_left _ (lex_append_left _
      (lex_append_of_length_eq (padDec_lex 2 _ _ h hb4) (by simp [padDec_length]) _ _)))
  rw [e4]
  rcases h with h | ⟨e5, h⟩
  · exact lex_append_left _ (lex_append_left _ (lex_append_left _ (lex_append_left _
      (lex_append_of_length_eq (padDec_lex 2 _ _ h hb5) (by simp [padDec_length]) _ _))))
  rw [e5]
  rcases h with h | ⟨e6, h⟩
  · exact lex_append_left _ (lex_append_left _ (lex_append_left _ (lex_append_left _
      (lex_append_left _
        (lex_append_of_length_eq (padDec_lex 2 _ _ h hb6) (by simp [padDec_length]) _ _)))))
  rw [e6]
  exact lex_append_left _ (lex_append_left _ (lex_append_left _ (lex_append_left _
    (lex_append_left _ (lex_append_left _
      (lex_append_of_length_eq (padDec_lex 9 _ _ h hb7) (by simp [padDec_length]) _ _))))))

theorem data_mintJournalKey (t : Timestamp) (id : String) :
    (mintJournalKey t id).data =
      "journal/".data ++ ((tsString t).data ++ ('-' :: id.data)) := by
  simp [mintJournalKey, List.append_assoc]

/-- Later mint time means strictly greater segment key, whatever the
random ids are. -/
theorem mintJournalKey_lt (a b : Timestamp) (id1 id2 : String)
    (ha : tsBounded a) (hb : tsBounded b) (h : Timestamp.before a b) :
    mintJournalKey a id1 < mintJournalKey b id2 := by
  apply String.lt_iff_toList_lt.mpr
  show List.Lex (· < ·) (mintJournalKey a id1).data (mintJournalKey b id2).data
  rw [data_mintJournalKey, data_mintJournalKey]
  exact lex_append_left _ (tsString_lex a b ha hb h _ _)

theorem strStarts_mintJournalKey (t : Timestamp) (id : String) :
    strStarts "journal/" (mintJournalKey t id) = true := by
  rw [strStarts, data_mintJournalKey]
  simp [List.isPrefixOf_iff_prefix]

theorem strStarts_mintDataKey (id : String) :
    strStarts "journal/" (mintDataKey id) = false := by
  have hd : (mintDataKey id).data = 'd' :: 'a' :: 't' :: 'a' :: '/' :: id.data := rfl
  have hj : "journal/".data = 'j' :: 'o' :: 'u' :: 'r' :: 'n' :: 'a' :: 'l' :: '/' :: [] := rfl
  rw [strStarts, hd, hj]
  simp [List.isPrefixOf]

theorem mintDataKey_ne_mintJournalKey (cid : String) (t : Timestamp) (sid : String) :
    mintDataKey cid ≠ mintJournalKey t sid := by
  intro h
  have : (mintDataKey cid).data = (mintJournalKey t sid).data := by rw [h]
  rw [data_mintJournalKey] at this
  have hd : (mintDataKey cid).data = 'd' :: 'a' :: 't' :: 'a' :: '/' :: cid.data := rfl
  have hj : "journal/".data = 'j' :: 'o' :: 'u' :: 'r' :: 'n' :: 'a' :: 'l' :: '/' :: [] := rfl
  rw [hd, hj] at this
  simp at this

/-! ### Lemmas: the reconstructed map has unique paths -/

theorem mem_insertFs (fs : List (Path × SFile)) (p : Path) (f : SFile)
    (e : Path × SFile) (he : e ∈ insertFs fs p f) : e ∈ fs ∨ e = (p, f) := by
  induction fs with
  | nil => simpa [insertFs] using he
  | cons x rest ih =>
    obtain ⟨q, g⟩ := x
    by_cases hq : q = p
    · rw [insertFs, if_pos hq] at he
      rcases List.mem_cons.mp he with h | h
      · right; exact h
      · left; exact List.mem_cons_of_mem _ h
    · rw [insertFs, if_neg hq] at he
      rcases List.mem_cons.mp he with h | h
      · left; exact h ▸ List.mem_cons_self _ _
      · rcases ih h with h2 | h2
        · left; exact List.mem_cons_of_mem _ h2
        · right; exact h2

theorem insertFs_map_fst (fs : List (Path × SFile)) (p : Path) (f : SFile) :
    (insertFs fs p f).map Prod.fst = fs.map Prod.fst ∨
      (insertFs fs p f).map Prod.fst = fs.map Prod.fst ++ [p] := by
  induction fs with
  | nil => right; simp [insertFs]
  | cons x rest ih =>
    obtain ⟨q, g⟩ := x
    by_cases hq : q = p
    · left; rw [insertFs, if_pos hq]; simp [hq]
    · rw [insertFs, if_neg hq]
      rcases ih with h | h
      · left; simp [h]
      · right; simp [h]

theorem insertFs_map_fst_mem (fs : List (Path × SFile)) (p : Path) (f : SFile) (q : Path)
    (hq : q ∈ (insertFs fs p f).map Prod.fst) : q ∈ fs.map Prod.fst ∨ q = p := by
  rcases insertFs_map_fst fs p f with h | h
  · left; rwa [h] at hq
  · rw [h] at hq
    rcases List.mem_append.mp hq with h2 | h2
    · left; exact h2
    · right; simpa using h2

theorem insertFs_nodup (fs : List (Path × SFile)) (p : Path) (f : SFile)
    (h : (fs.map Prod.fst).Nodup) : ((insertFs fs p f).map Prod.fst).Nodup := by
  induction fs with
  | nil => simp [insertFs]
  | cons x rest ih =>
    obtain ⟨q, g⟩ := x
    simp only [List.map_cons, List.nodup_cons] at h
    by_cases hq : q = p
    · rw [insertFs, if_pos hq]
      simp only [List.map_cons, List.nodup_cons]
      exact ⟨hq ▸ h.1, h.2⟩
    · rw [insertFs, if_neg hq]
      simp only [List.map_cons, List.nodup_cons]
      refine ⟨fun hmem => ?_, ih h.2⟩
      rcases insertFs_map_fst_mem rest p f q hmem with h2 | h2
      · exact h.1 h2
      · exact hq h2

theorem mem_eraseFs (fs : List (Path × SFile)) (p : Path) (e : Path × SFile)
    (he : e ∈ eraseFs fs p) : e ∈ fs := by
  induction fs with
  | nil => simp [eraseFs] at he
  | cons x rest ih =>
    obtain ⟨q, g⟩ := x
    by_cases hq : q = p
    · rw [eraseFs, if_pos hq] at he
      exact List.mem_cons_of_mem _ (ih he)
    · rw [eraseFs, if_neg hq] at he
      rcases List.mem_cons.mp he with h | h
      · exact h ▸ List.mem_cons_self _ _
      · exact List.mem_cons_of_mem _ (ih h)

theorem eraseFs_map_fst_sublist (fs : List (Path × SFile)) (p : Path) :
    ((eraseFs fs p).map Prod.fst).Sublist (fs.map Prod.fst) := by
  induction fs with
  | nil => simp [eraseFs]
  | cons x rest ih =>
    obtain ⟨q, g⟩ := x
    by_cases hq : q = p
    · rw [eraseFs, if_pos hq]
      exact ih.cons q
    · rw [eraseFs, if_neg hq]
      simpa using ih.cons₂ q

theorem goodFs_insertFs (fs : List (Path × SFile)) (p : Path) (f : SFile)
    (h : goodFs fs) (hf : f.meta.path = p) : goodFs (insertFs fs p f) := by
  refine ⟨insertFs_nodup fs p f h.1, fun e he => ?_⟩
  rcases mem_insertFs fs p f e he with h2 | h2
  · exact h.2 e h2
  · rw [h2]; exact hf

theorem goodFs_eraseFs (fs : List (Path × SFile)) (p : Path) (h : goodFs fs) :
    goodFs (eraseFs fs p) :=
  ⟨h.1.sublist (eraseFs_map_fst_sublist fs p), fun e he => h.2 e (mem_eraseFs fs p e he)⟩

theorem goodFs_foldl (recs : List JournalRecord) :
    ∀ init, goodFs init → goodFs (recs.foldl stepRecord init) := by
  induction recs with
  | nil => exact fun init h => h
  | cons r recs ih =>
    intro init h
    rw [List.foldl_cons]
    refine ih (stepRecord init r) ?_
    rw [stepRecord]
    cases r.journal with
    | CreateFile m k => exact goodFs_insertFs init m.path ⟨m, k⟩ h rfl
    | RemoveFile m => exact goodFs_eraseFs init m.path h

theorem goodFs_replay (recs : List JournalRecord) : goodFs (replay recs) :=
  goodFs_foldl recs [] ⟨List.nodup_nil, by simp⟩

theorem filter_path_length_le_one (fs : List (Path × SFile)) (h : goodFs fs) (p : Path) :
    ((fs.map Prod.snd).filter (fun f => decide (f.meta.path = p))).length ≤ 1 := by
  induction fs with
  | nil => simp
  | cons x rest ih =>
    obtain ⟨q, g⟩ := x
    obtain ⟨hnd, hpaths⟩ := h
    simp only [List.map_cons, List.nodup_cons] at hnd
    have hg : g.meta.path = q := hpaths (q, g) (List.mem_cons_self _ _)
    have hrest : goodFs rest := ⟨hnd.2, fun e he => hpaths e (List.mem_cons_of_mem _ he)⟩
    by_cases hq : g.meta.path = p
    · have hnone : (rest.map Prod.snd).filter (fun f => decide (f.meta.path = p)) = [] := by
        rw [List.filter_eq_nil_iff]
        intro f hf
        simp only [decide_eq_true_eq]
        rcases List.mem_map.mp hf with ⟨e, he, rfl⟩
        rw [hrest.2 e he]
        intro hep
        have hqp : q = p := by rw [← hg, hq]
        exact hnd.1 (by rw [hqp, ← hep]; exact List.mem_map_of_mem Prod.fst he)
      simp [List.filter_cons, hq, hnone]
    · simpa [List.filter_cons, hq] using ih hrest

theorem find?_eq_head?_filter (l : List SFile) (q : SFile → Bool) :
    l.find? q = (l.filter q).head? := by
  induction l with
  | nil => rfl
  | cons x rest ih =>
    by_cases hx : q x
    · simp [List.find?_cons, List.filter_cons, hx]
    · simp only [List.find?_cons, List.filter_cons, hx] at ih ⊢
      simp [Bool.not_eq_true] at ih ⊢
      try exact ih

theorem find?_perm_of_unique (v l1 l2 : List SFile) (q : SFile → Bool)
    (h1 : List.Perm v l1) (h2 : List.Perm v l2) (hlen : (v.filter q).length ≤ 1) :
    l1.find? q = l2.find? q := by
  rw [find?_eq_head?_filter, find?_eq_head?_filter]
  have hp1 : List.Perm (v.filter q) (l1.filter q) := h1.filter q
  have hp2 : List.Perm (v.filter q) (l2.filter q) := h2.filter q
  match hv : v.filter q with
  | [] =>
    rw [hv] at hp1 hp2
    rw [List.perm_nil.mp hp1.symm, List.perm_nil.mp hp2.symm]
  | [x] =>
    rw [hv] at hp1 hp2
    rw [← List.singleton_perm.mp hp1, ← List.singleton_perm.mp hp2]
  | x :: y :: t =>
    rw [hv] at hlen
    simp at hlen

/-! ### Lemmas: the ram backend and the syncer -/

theorem mem_ramInsert_self (r : List (Path × RamFile)) (p : Path) (f : RamFile) :
    (p, f) ∈ ramInsert r p f := by
  induction r with
  | nil => simp [ramInsert]
  | cons x rest ih =>
    obtain ⟨q, g⟩ := x
    by_cases hq : q = p
    · rw [ramInsert, if_pos hq]; exact List.mem_cons_self _ _
    · rw [ramInsert, if_neg hq]; exact List.mem_cons_of_mem _ ih

theorem mem_ramInsert_of_ne (r : List (Path × RamFile)) (p : Path) (f : RamFile)
    (q : Path) (g : RamFile) (hq : q ≠ p) (hm : (q, g) ∈ r) : (q, g) ∈ ramInsert r p f := by
  induction r with
  | nil => cases hm
  | cons x rest ih =>
    obtain ⟨q1, g1⟩ := x
    rcases List.mem_cons.mp hm with h | h
    · injection h with h1 h2
      subst h1; subst h2
      rw [ramInsert]
      split
      · next hq1 => exact absurd hq1 hq
      · exact List.mem_cons_self _ _
    · rw [ramInsert]
      split
      · next hq1 =>
        subst hq1
        exact List.mem_cons_of_mem _ h
      · exact List.mem_cons_of_mem _ (ih h)

theorem ramHas_ramInsert (r : List (Path × RamFile)) (p : Path) (f : RamFile)
    (hf : f.meta.path = p) (q : Path) (h : ramHas r q) : ramHas (ramInsert r p f) q := by
  by_cases hq : q = p
  · subst hq
    exact ⟨f, mem_ramInsert_self r q f, hf⟩
  · obtain ⟨g, hm, hg⟩ := h
    exact ⟨g, mem_ramInsert_of_ne r p f q g hq hm, hg⟩

theorem ram_create_ok (r : List (Path × RamFile)) (f : MFile) (c : List Nat)
    (hc : f.content = .ok c) :
    ramModel.create_file r f = .ok (ramInsert r f.meta.path ⟨f.meta, c⟩) := by
  simp [ramModel, hc]

theorem createAll_ram_preserves (fs : List MFile) :
    ∀ (r r2 : List (Path × RamFile)), createAll ramModel r fs = .ok r2 →
    ∀ q, ramHas r q → ramHas r2 q := by
  induction fs with
  | nil =>
    intro r r2 h q hq
    cases h
    exact hq
  | cons f fs ih =>
    intro r r2 h q hq
    rw [createAll] at h
    cases hc : ramModel.create_file r f with
    | error e => rw [hc] at h; cases h
    | ok r1 =>
      rw [hc] at h
      cases hcf : f.content with
      | error e => simp [ramModel, hcf] at hc
      | ok c =>
        have : r1 = ramInsert r f.meta.path ⟨f.meta, c⟩ := by
          rw [ram_create_ok r f c hcf] at hc
          exact (Except.ok.inj hc).symm
        subst this
        exact ih _ r2 h q (ramHas_ramInsert r f.meta.path ⟨f.meta, c⟩ rfl q hq)

theorem createAll_ram_establishes (fs : List MFile) :
    ∀ (r r2 : List (Path × RamFile)), createAll ramModel r fs = .ok r2 →
    ∀ f ∈ fs, ramHas r2 f.meta.path := by
  induction fs with
  | nil => intro r r2 _ f hf; cases hf
  | cons f0 fs ih =>
    intro r r2 h f hf
    rw [createAll] at h
    cases hc : ramModel.create_file r f0 with
    | error e => rw [hc] at h; cases h
    | ok r1 =>
      rw [hc] at h
      rcases List.mem_cons.mp hf with rfl | hmem
      · cases hcf : f.content with
        | error e => simp [ramModel, hcf] at hc
        | ok c =>
          have : r1 = ramInsert r f.meta.path ⟨f.meta, c⟩ := by
            rw [ram_create_ok r f c hcf] at hc
            exact (Except.ok.inj hc).symm
          subst this
          exact createAll_ram_preserves fs _ r2 h f.meta.path
            ⟨⟨f.meta, c⟩, mem_ramInsert_self r f.meta.path _, rfl⟩
      · exact ih r1 r2 h f hmem

theorem ram_list_of_ramHas (r : List (Path × RamFile)) (p : Path) (h : ramHas r p) :
    ∃ l, ramModel.list_files r = .ok l ∧ ∃ mf ∈ l, mf.meta.path = p := by
  obtain ⟨g, hm, hg⟩ := h
  exact ⟨_, rfl, ⟨g.meta, .ok g.data⟩, List.mem_map.mpr ⟨(p, g), hm, rfl⟩, hg⟩

/-! ### Lemmas: reconstruction after appending one fresh segment -/

theorem mem_keys_put (s : S3) (k : String) (v : List Nat) (q : String) :
    q ∈ (put_object s k v).keys ↔ q ∈ s.keys ∨ q = k := by
  by_cases h : k ∈ s.keys
  · rw [keys_put_mem s k v h]
    constructor
    · exact fun hq => Or.inl hq
    · rintro (hq | rfl) <;> assumption
  · rw [keys_put_new s k v h]
    simp

theorem fetchAll_snoc_fresh (s s2 : S3) (jk : String) (jf : JournalFile)
    (hjks : journalKeys s2 = journalKeys s ++ [jk])
    (hmax : ∀ k ∈ journalKeys s, k < jk)
    (hold : ∀ k ∈ journalKeys s, s2.get k = s.get k)
    (hnew : getAndDecode s2 jk = .ok jf)
    (jfs : List JournalFile) (hfetch : fetchAll s (sortedJournalKeys s) = .ok jfs) :
    fetchAll s2 (sortedJournalKeys s2) = .ok (jfs ++ [jf]) := by
  have hsorted : sortedJournalKeys s2 = sortedJournalKeys s ++ [jk] := by
    rw [sortedJournalKeys, hjks, insertionSort_append_max _ _ hmax, sortedJournalKeys]
  rw [hsorted]
  have hAgree : ∀ k ∈ sortedJournalKeys s, getAndDecode s2 k = getAndDecode s k := by
    intro k hk
    have hk2 : k ∈ journalKeys s := (sortedJournalKeys_perm s).mem_iff.mp hk
    simp only [getAndDecode, hold k hk2]
  have h1 : fetchAll s2 (sortedJournalKeys s) = .ok jfs := by
    rw [fetchAll_congr s s2 _ hAgree]
    exact hfetch
  exact fetchAll_append_one s2 _ jk jfs jf h1 hnew

theorem fetch_ok_iff (s : S3) (fs : List (Path × SFile)) :
    fetch_remote_filesystem s = .ok fs ↔
      ∃ jfs, fetchAll s (sortedJournalKeys s) = .ok jfs ∧ fs = replay (allRecords jfs) := by
  constructor
  · intro h
    cases hf : fetchAll s (sortedJournalKeys s) with
    | error e => rw [fetch_remote_filesystem, hf] at h; cases h
    | ok jfs =>
      rw [fetch_remote_filesystem, hf] at h
      exact ⟨jfs, rfl, (Except.ok.inj h).symm⟩
  · rintro ⟨jfs, hf, rfl⟩
    rw [fetch_remote_filesystem, hf]

/-- Appending one fresh, maximal-key single-record segment makes the
reconstructed map take exactly one more fold step. -/
theorem fetch_put_one_segment (s : S3) (r : JournalRecord) (fs : List (Path × SFile))
    (hwf : wfJournalFile ⟨[r]⟩ = true)
    (hjk : strStarts "journal/" r.key = true)
    (hfresh : r.key ∉ s.keys)
    (hmax : ∀ k ∈ journalKeys s, k < r.key)
    (hfetch : fetch_remote_filesystem s = .ok fs) :
    fetch_remote_filesystem (put_object s r.key (encJournalFile ⟨[r]⟩)) =
      .ok (stepRecord fs r) := by
  obtain ⟨jfs, hfa, rfl⟩ := (fetch_ok_iff s fs).mp hfetch
  set s2 := put_object s r.key (encJournalFile ⟨[r]⟩) with hs2
  have hjks : journalKeys s2 = journalKeys s ++ [r.key] :=
    journalKeys_put_journal s r.key _ hjk hfresh
  have hold : ∀ k ∈ journalKeys s, s2.get k = s.get k := by
    intro k hk
    have hkne : k ≠ r.key := by
      intro hkk
      exact hfresh (hkk ▸ ((mem_journalKeys s k).mp hk).1)
    exact get_put_other s r.key _ k hkne
  have hnew : getAndDecode s2 r.key = .ok (⟨[r]⟩ : JournalFile) := by
    have hget : s2.get r.key = .ok (encJournalFile ⟨[r]⟩) := get_put_self s r.key _
    have hdec : decodeJournalFile (encJournalFile ⟨[r]⟩) = some (⟨[r]⟩, []) := by
      have := decode_encode_append ⟨[r]⟩ hwf []
      rwa [List.append_nil] at this
    simp only [getAndDecode, hget, hdec]
  have h2 := fetchAll_snoc_fresh s s2 r.key ⟨[r]⟩ hjks hmax hold hnew jfs hfa
  apply (fetch_ok_iff s2 _).mpr
  refine ⟨jfs ++ [⟨[r]⟩], h2, ?_⟩
  rw [allRecords_append, replay_append]
  rfl

theorem lookupFs_mem (fs : List (Path × SFile)) (p : Path) (f : SFile)
    (h : lookupFs fs p = some f) : f ∈ fs.map Prod.snd := by
  induction fs with
  | nil => cases h
  | cons x rest ih =>
    obtain ⟨q, g⟩ := x
    rw [lookupFs] at h
    by_cases hq : q = p
    · rw [if_pos hq] at h
      simp [Option.some.inj h]
    · rw [if_neg hq] at h
      simp [ih h]

/-! ### The claims -/

/-- C9: for every input, the local backend's `create_dir` returns the
`NotImplemented` error; it never succeeds and never silently no-ops. -/
theorem c9_local_create_dir_not_implemented (m : FileMeta) :
    local_create_dir m = .error .NotImplemented ∧ (local_create_dir m).isOk = false :=
  ⟨rfl, rfl⟩

/-- C6: decoding the bytes produced by encoding any journal segment
yields the original segment — record order and every field of every
record's operation variant are preserved. -/
theorem c6_codec_round_trip (jf : JournalFile) (h : wfJournalFile jf = true) :
    decodeJournalFile (encJournalFile jf) = some (jf, []) := by
  have h2 := decode_encode_append jf h []
  rwa [List.append_nil] at h2

/-- Witness for C6 at a two-record segment covering both variants. -/
theorem c6_codec_round_trip_witness :
    wfJournalFile ⟨[⟨.CreateFile sampleMeta "data/d0", sampleTs, "journal/k0"⟩,
        ⟨.RemoveFile sampleMeta, ⟨2021, 2, 3, 4, 5, 6, 7⟩, "journal/k1"⟩]⟩ = true ∧
      decodeJournalFile (encJournalFile ⟨[⟨.CreateFile sampleMeta "data/d0", sampleTs,
          "journal/k0"⟩, ⟨.RemoveFile sampleMeta, ⟨2021, 2, 3, 4, 5, 6, 7⟩, "journal/k1"⟩]⟩) =
        some (⟨[⟨.CreateFile sampleMeta "data/d0", sampleTs, "journal/k0"⟩,
          ⟨.RemoveFile sampleMeta, ⟨2021, 2, 3, 4, 5, 6, 7⟩, "journal/k1"⟩]⟩, []) :=
  ⟨by decide, c6_codec_round_trip _ (by decide)⟩

/-- C2: if any one listed journal segment cannot be fetched or decoded,
`fetch_remote_filesystem` and `list_files` fail as a whole; no partial
result is returned. -/
theorem c2_list_files_all_or_nothing (s : S3) (k : String)
    (hmem : k ∈ s.keys) (hpre : strStarts "journal/" k = true)
    (hfail : (getAndDecode s k).isOk = false) :
    (fetch_remote_filesystem s).isOk = false ∧ (list_files s).isOk = false := by
  have hk : k ∈ sortedJournalKeys s :=
    (sortedJournalKeys_perm s).mem_iff.mpr ((mem_journalKeys s k).mpr ⟨hmem, hpre⟩)
  have h1 := fetchAll_error_of_mem s _ k hk hfail
  cases hf : fetchAll s (sortedJournalKeys s) with
  | error e =>
    constructor <;>
      simp [fetch_remote_filesystem, list_files, hf, Except.isOk, Except.toBool]
  | ok jfs => rw [hf] at h1; simp [Except.isOk, Except.toBool] at h1

/-- Witness for C2: a store with a single journal object whose GET
fails. -/
theorem c2_list_files_all_or_nothing_witness :
    (fetch_remote_filesystem ⟨["journal/k0"], fun _ => .error (.RusotoFail "net")⟩).isOk =
        false ∧
      (list_files ⟨["journal/k0"], fun _ => .error (.RusotoFail "net")⟩).isOk = false :=
  c2_list_files_all_or_nothing ⟨["journal/k0"], fun _ => .error (.RusotoFail "net")⟩
    "journal/k0" (by decide) (by decide) rfl

/-- C5: `create_file` and `remove_file` mint segment keys of the form
`journal/<fixed-width timestamp>-<random id>` (the timestamp rendering is
23 chars, zero-padded, of nanosecond precision) and content keys of the
separate namespace `data/<random id>`; strictly later timestamps yield
strictly greater segment keys in string order, whatever the random ids
are. -/
theorem c5_segment_key_format (s : S3) (meta : FileMeta) (c : List Nat)
    (a b : Timestamp) (cid sid id1 id2 : String)
    (ha : tsBounded a) (hb : tsBounded b) (hab : Timestamp.before a b) :
    create_file s meta c a cid sid =
      put_object (put_object s (mintDataKey cid) c) (mintJournalKey a sid)
        (encJournalFile ⟨[⟨.CreateFile meta (mintDataKey cid), a, mintJournalKey a sid⟩]⟩) ∧
    remove_file s meta a sid =
      put_object s (mintJournalKey a sid)
        (encJournalFile ⟨[⟨.RemoveFile meta, a, mintJournalKey a sid⟩]⟩) ∧
    mintJournalKey a sid = "journal/" ++ tsString a ++ "-" ++ sid ∧
    mintDataKey cid = "data/" ++ cid ∧
    (tsString a).length = 23 ∧
    mintJournalKey a id1 < mintJournalKey b id2 :=
  ⟨rfl, rfl, rfl, rfl, tsString_length a, mintJournalKey_lt a b id1 id2 ha hb hab⟩

/-- Witness for C5 at two concrete timestamps one second apart, with the
random ids chosen against the desired order. -/
theorem c5_segment_key_format_witness :
    mintJournalKey ⟨2020, 1, 2, 3, 4, 5, 6⟩ "zzz" <
      mintJournalKey ⟨2020, 1, 2, 3, 4, 6, 0⟩ "aaa" :=
  (c5_segment_key_format emptyS3 sampleMeta [] ⟨2020, 1, 2, 3, 4, 5, 6⟩
    ⟨2020, 1, 2, 3, 4, 6, 0⟩ "c0" "s0" "zzz" "aaa" (by decide) (by decide)
    (by decide)).2.2.2.2.2

/-- C8: `remove_file` appends one fresh single-record `RemoveFile{meta}`
segment and succeeds without any existence check; no content object or
existing segment object is deleted; and on an already-absent or
never-existent path the tombstone is a no-op at replay time. -/
theorem c8_remove_file_tombstone :
    (∀ (s : S3) (meta : FileMeta) (t : Timestamp) (sid : String),
      remove_file s meta t sid =
        put_object s (mintJournalKey t sid)
          (encJournalFile ⟨[⟨.RemoveFile meta, t, mintJournalKey t sid⟩]⟩) ∧
      (mintJournalKey t sid ∉ s.keys →
        ∀ k ∈ s.keys, k ∈ (remove_file s meta t sid).keys ∧
          (remove_file s meta t sid).get k = s.get k)) ∧
    (∀ (s : S3) (meta : FileMeta) (t : Timestamp) (sid : String) (fs : List (Path × SFile)),
      wfJournalFile ⟨[⟨.RemoveFile meta, t, mintJournalKey t sid⟩]⟩ = true →
      mintJournalKey t sid ∉ s.keys →
      (∀ k ∈ journalKeys s, k < mintJournalKey t sid) →
      fetch_remote_filesystem s = .ok fs →
      lookupFs fs meta.path = none →
      ∃ fs2, fetch_remote_filesystem (remove_file s meta t sid) = .ok fs2 ∧
        ∀ q, lookupFs fs2 q = lookupFs fs q) := by
  constructor
  · intro s meta t sid
    refine ⟨rfl, fun hfresh k hk => ⟨?_, ?_⟩⟩
    · exact (mem_keys_put s (mintJournalKey t sid) _ k).mpr (Or.inl hk)
    · refine get_put_other s (mintJournalKey t sid) _ k ?_
      intro hkk
      exact hfresh (hkk ▸ hk)
  · intro s meta t sid fs hwf hfresh hmax hfetch habsent
    have h2 := fetch_put_one_segment s ⟨.RemoveFile meta, t, mintJournalKey t sid⟩ fs
      hwf (strStarts_mintJournalKey t sid) hfresh hmax hfetch
    refine ⟨eraseFs fs meta.path, h2, fun q => ?_⟩
    rw [lookupFs_eraseFs]
    by_cases hq : q = meta.path
    · rw [if_pos hq, hq, habsent]
    · rw [if_neg hq]

/-- Witness for C8: removing a never-existent path from an empty store
succeeds and leaves the (empty) reconstruction unchanged. -/
theorem c8_remove_file_tombstone_witness :
    ∃ fs2, fetch_remote_filesystem (remove_file emptyS3 sampleMeta sampleTs "s0") = .ok fs2 ∧
      ∀ q, lookupFs fs2 q = lookupFs [] q :=
  c8_remove_file_tombstone.2 emptyS3 sampleMeta sampleTs "s0" [] (by decide) (by decide)
    (by decide) rfl rfl

/-- C3: after a successful `create_file` with meta M and content C (its
fresh journal key minted after every existing one), `list_files` returns
an entry with meta M whose `read_all` yields exactly C. -/
theorem c3_create_file_round_trip (s : S3) (meta : FileMeta) (content : List Nat)
    (t : Timestamp) (cid sid : String) (fs : List (Path × SFile))
    (hwf : wfJournalFile
      ⟨[⟨.CreateFile meta (mintDataKey cid), t, mintJournalKey t sid⟩]⟩ = true)
    (hfresh : mintJournalKey t sid ∉ s.keys)
    (hmax : ∀ k ∈ journalKeys s, k < mintJournalKey t sid)
    (hfetch : fetch_remote_filesystem s = .ok fs) :
    ∃ l, list_files (create_file s meta content t cid sid) = .ok l ∧
      ∃ f ∈ l, f.meta = meta ∧
        read_all (create_file s meta content t cid sid) f = .ok content := by
  set dk := mintDataKey cid with hdk
  set jk := mintJournalKey t sid with hjk
  set s1 := put_object s dk content with hs1
  have hdkne : dk ≠ jk := mintDataKey_ne_mintJournalKey cid t sid
  have hjk1 : journalKeys s1 = journalKeys s :=
    journalKeys_put_nonjournal s dk content (strStarts_mintDataKey cid)
  have hsorted1 : sortedJournalKeys s1 = sortedJournalKeys s := by
    rw [sortedJournalKeys, hjk1, sortedJournalKeys]
  have hfetch1 : fetch_remote_filesystem s1 = .ok fs := by
    obtain ⟨jfs, hfa, rfl⟩ := (fetch_ok_iff s fs).mp hfetch
    refine (fetch_ok_iff s1 _).mpr ⟨jfs, ?_, rfl⟩
    rw [hsorted1]
    rw [fetchAll_congr s s1 (sortedJournalKeys s) ?_]
    · exact hfa
    · intro k hk
      have hk2 : k ∈ journalKeys s := (sortedJournalKeys_perm s).mem_iff.mp hk
      have hkdk : k ≠ dk := by
        intro hkk
        have := ((mem_journalKeys s k).mp hk2).2
        rw [hkk, strStarts_mintDataKey cid] at this
        cases this
      simp only [getAndDecode, hs1, get_put_other s dk content k hkdk]
  have hfresh1 : jk ∉ s1.keys := by
    intro hmem
    rcases (mem_keys_put s dk content jk).mp hmem with h | h
    · exact hfresh h
    · exact hdkne h.symm
  have hmax1 : ∀ k ∈ journalKeys s1, k < jk := by
    rw [hjk1]; exact hmax
  have h2 := fetch_put_one_segment s1 ⟨.CreateFile meta dk, t, jk⟩ fs hwf
    (strStarts_mintJournalKey t sid) hfresh1 hmax1 hfetch1
  have hcf : create_file s meta content t cid sid = put_object s1 jk
      (encJournalFile ⟨[⟨.CreateFile meta dk, t, jk⟩]⟩) := rfl
  rw [hcf]
  set s2 := put_object s1 jk (encJournalFile ⟨[⟨.CreateFile meta dk, t, jk⟩]⟩) with hs2
  have hstep : stepRecord fs ⟨.CreateFile meta dk, t, jk⟩ = insertFs fs meta.path ⟨meta, dk⟩ :=
    rfl
  rw [hstep] at h2
  refine ⟨(insertFs fs meta.path ⟨meta, dk⟩).map Prod.snd, ?_, ⟨meta, dk⟩, ?_, rfl, ?_⟩
  · rw [list_files, h2]
  · apply lookupFs_mem _ meta.path
    rw [lookupFs_insertFs, if_pos rfl]
  · rw [read_all, hs2, get_put_other s1 jk _ dk hdkne, hs1, get_put_self]

/-- Witness for C3: create into the empty store and read the file back. -/
theorem c3_create_file_round_trip_witness :
    ∃ l, list_files (create_file emptyS3 sampleMeta [7, 8] sampleTs "c0" "s0") = .ok l ∧
      ∃ f ∈ l, f.meta = sampleMeta ∧
        read_all (create_file emptyS3 sampleMeta [7, 8] sampleTs "c0" "s0") f = .ok [7, 8] :=
  c3_create_file_round_trip emptyS3 sampleMeta [7, 8] sampleTs "c0" "s0" [] (by decide)
    (by decide) (by decide) rfl

/-- C1: reconstruction folds the concatenation of all segments' records,
in ascending segment-key order with intra-segment order preserved, with
`CreateFile` as upsert and `RemoveFile` as delete; hence a path is bound
exactly as the last record naming it dictates.  In particular a
`CreateFile` under key `k1` followed by a `RemoveFile` under `k2 > k1`
excludes the path, and a further `CreateFile` under `k3 > k2` re-includes
it with that record's meta. -/
theorem c1_reconstruction_last_record_wins :
    (∀ (s : S3) (jfs : List JournalFile) (fs : List (Path × SFile)),
      fetchAll s (sortedJournalKeys s) = .ok jfs →
      fetch_remote_filesystem s = .ok fs →
      List.Sorted (· ≤ ·) (sortedJournalKeys s) ∧
        List.Perm (sortedJournalKeys s) (journalKeys s) ∧
        fs = replay (allRecords jfs) ∧
        ∀ p, lookupFs fs p = specViewFile p (allRecords jfs)) ∧
    (∀ (s : S3) (k1 k2 : String) (r1 r2 : JournalRecord) (m1 m2 : FileMeta)
       (ck : String) (p : Path),
      s.keys = [k1, k2] →
      strStarts "journal/" k1 = true → strStarts "journal/" k2 = true →
      k1 < k2 →
      getAndDecode s k1 = .ok ⟨[r1]⟩ → getAndDecode s k2 = .ok ⟨[r2]⟩ →
      r1.journal = .CreateFile m1 ck → r2.journal = .RemoveFile m2 →
      m1.path = p → m2.path = p →
      ∃ fs, fetch_remote_filesystem s = .ok fs ∧ lookupFs fs p = none) ∧
    (∀ (s : S3) (k1 k2 k3 : String) (r1 r2 r3 : JournalRecord) (m1 m2 m3 : FileMeta)
       (ck1 ck3 : String) (p : Path),
      s.keys = [k1, k2, k3] →
      strStarts "journal/" k1 = true → strStarts "journal/" k2 = true →
      strStarts "journal/" k3 = true →
      k1 < k2 → k2 < k3 →
      getAndDecode s k1 = .ok ⟨[r1]⟩ → getAndDecode s k2 = .ok ⟨[r2]⟩ →
      getAndDecode s k3 = .ok ⟨[r3]⟩ →
      r1.journal = .CreateFile m1 ck1 → r2.journal = .RemoveFile m2 →
      r3.journal = .CreateFile m3 ck3 →
      m1.path = p → m2.path = p → m3.path = p →
      ∃ fs, fetch_remote_filesystem s = .ok fs ∧ lookupFs fs p = some ⟨m3, ck3⟩) := by
  refine ⟨?_, ?_, ?_⟩
  · intro s jfs fs hfa hfetch
    obtain ⟨jfs2, hfa2, rfl⟩ := (fetch_ok_iff s fs).mp hfetch
    have hjfs : jfs2 = jfs := by
      rw [hfa2] at hfa
      exact Except.ok.inj hfa
    subst hjfs
    exact ⟨sortedJournalKeys_sorted s, sortedJournalKeys_perm s, rfl,
      fun p => lookupFs_replay (allRecords jfs2) p⟩
  · intro s k1 k2 r1 r2 m1 m2 ck p hkeys hpre1 hpre2 h12 hg1 hg2 hj1 hj2 hm1 hm2
    have hjk : journalKeys s = [k1, k2] := by
      rw [journalKeys, hkeys]
      simp [List.filter_cons, hpre1, hpre2]
    have hsort : sortedJournalKeys s = [k1, k2] := by
      rw [sortedJournalKeys, hjk]
      simp [List.insertionSort, List.orderedInsert, le_of_lt h12]
    have hfa : fetchAll s (sortedJournalKeys s) =
        .ok [(⟨[r1]⟩ : JournalFile), ⟨[r2]⟩] := by
      rw [hsort]
      simp [fetchAll, hg1, hg2]
    refine ⟨replay (allRecords [⟨[r1]⟩, ⟨[r2]⟩]), ?_, ?_⟩
    · exact (fetch_ok_iff s _).mpr ⟨_, hfa, rfl⟩
    · rw [lookupFs_replay]
      simp [allRecords, specViewFile, lastRecordNaming, List.find?, recordPath, hj2, hm2]
  · intro s k1 k2 k3 r1 r2 r3 m1 m2 m3 ck1 ck3 p hkeys hpre1 hpre2 hpre3 h12 h23
      hg1 hg2 hg3 hj1 hj2 hj3 hm1 hm2 hm3
    have hjk : journalKeys s = [k1, k2, k3] := by
      rw [journalKeys, hkeys]
      simp [List.filter_cons, hpre1, hpre2, hpre3]
    have hsort : sortedJournalKeys s = [k1, k2, k3] := by
      rw [sortedJournalKeys, hjk]
      have e1 : [k1, k2, k3] = [k1, k2] ++ [k3] := rfl
      have hlt3 : ∀ x ∈ [k1, k2], x < k3 := by
        intro x hx
        rcases List.mem_cons.mp hx with rfl | hx2
        · exact lt_trans h12 h23
        · rcases List.mem_cons.mp hx2 with rfl | hx3
          · exact h23
          · cases hx3
      rw [e1, insertionSort_append_max _ _ hlt3]
      have e2 : [k1, k2] = [k1] ++ [k2] := rfl
      have hlt2 : ∀ x ∈ [k1], x < k2 := by
        intro x hx
        rcases List.mem_cons.mp hx with rfl | hx2
        · exact h12
        · cases hx2
      rw [e2, insertionSort_append_max _ _ hlt2]
      rfl
    have hfa : fetchAll s (sortedJournalKeys s) =
        .ok [(⟨[r1]⟩ : JournalFile), ⟨[r2]⟩, ⟨[r3]⟩] := by
      rw [hsort]
      simp [fetchAll, hg1, hg2, hg3]
    refine ⟨replay (allRecords [⟨[r1]⟩, ⟨[r2]⟩, ⟨[r3]⟩]), ?_, ?_⟩
    · exact (fetch_ok_iff s _).mpr ⟨_, hfa, rfl⟩
    · rw [lookupFs_replay]
      simp [allRecords, specViewFile, lastRecordNaming, List.find?, recordPath, hj3, hm3]

/-- Witness for C1: a concrete two-segment store (create under `k1`,
remove under `k2 > k1`) reconstructs without the path. -/
theorem c1_reconstruction_last_record_wins_witness :
    ∃ fs, fetch_remote_filesystem
        ⟨["journal/k1", "journal/k2"], fun k =>
          if k = "journal/k1" then
            .ok (encJournalFile ⟨[⟨.CreateFile sampleMeta "data/d0", sampleTs, "journal/k1"⟩]⟩)
          else
            .ok (encJournalFile ⟨[⟨.RemoveFile sampleMeta, sampleTs, "journal/k2"⟩]⟩)⟩ =
        .ok fs ∧
      lookupFs fs sampleMeta.path = none :=
  c1_reconstruction_last_record_wins.2.1
    ⟨["journal/k1", "journal/k2"], fun k =>
      if k = "journal/k1" then
        .ok (encJournalFile ⟨[⟨.CreateFile sampleMeta "data/d0", sampleTs, "journal/k1"⟩]⟩)
      else
        .ok (encJournalFile ⟨[⟨.RemoveFile sampleMeta, sampleTs, "journal/k2"⟩]⟩)⟩
    "journal/k1" "journal/k2"
    ⟨.CreateFile sampleMeta "data/d0", sampleTs, "journal/k1"⟩
    ⟨.RemoveFile sampleMeta, sampleTs, "journal/k2"⟩
    sampleMeta sampleMeta "data/d0" sampleMeta.path
    rfl (by decide) (by decide) (by rw [String.lt_iff_toList_lt]; decide) (by decide)
    (by decide) rfl rfl rfl rfl

/-- C4: reconstruction is a deterministic function of the stored segment
set — any two `list_files` results over the same unmodified store (in
whatever iteration order the hash map yields them) denote the same
path-to-meta mapping. -/
theorem c4_list_files_deterministic (s : S3) (v l1 l2 : List SFile)
    (hv : list_files s = .ok v)
    (h1 : List.Perm v l1) (h2 : List.Perm v l2) (p : Path) :
    pathMeta l1 p = pathMeta l2 p := by
  cases hf : fetch_remote_filesystem s with
  | error e => rw [list_files, hf] at hv; cases hv
  | ok fs =>
    rw [list_files, hf] at hv
    have hveq : v = fs.map Prod.snd := (Except.ok.inj hv).symm
    subst hveq
    obtain ⟨jfs, _, rfl⟩ := (fetch_ok_iff s fs).mp hf
    have hgood : goodFs (replay (allRecords jfs)) := goodFs_replay _
    have hflt := filter_path_length_le_one _ hgood p
    rw [pathMeta, pathMeta, find?_perm_of_unique _ l1 l2 _ h1 h2 hflt]

/-- Witness for C4 at a one-file store. -/
theorem c4_list_files_deterministic_witness :
    pathMeta [⟨sampleMeta, "data/d0"⟩] sampleMeta.path =
      pathMeta [⟨sampleMeta, "data/d0"⟩] sampleMeta.path :=
  c4_list_files_deterministic sampleS3 [⟨sampleMeta, "data/d0"⟩]
    [⟨sampleMeta, "data/d0"⟩] [⟨sampleMeta, "data/d0"⟩] rfl (List.Perm.refl _)
    (List.Perm.refl _) sampleMeta.path

theorem sync_ok_elim {σ0 σ1 : Type} (st0 : StorageModel σ0) (st1 : StorageModel σ1)
    (s0 : σ0) (s1 : σ1) (out : σ0 × σ1 × List SyncCall)
    (h : sync st0 st1 s0 s1 = .ok out) :
    ∃ fs0 s1a fs1 s0a, st0.list_files s0 = .ok fs0 ∧ createAll st1 s1 fs0 = .ok s1a ∧
      st1.list_files s1a = .ok fs1 ∧ createAll st0 s0 fs1 = .ok s0a ∧
      out = (s0a, s1a, fs0.map SyncCall.toSt1 ++ fs1.map SyncCall.toSt0) := by
  rw [sync] at h
  split at h
  · cases h
  · rename_i fs0 h0
    split at h
    · cases h
    · rename_i s1a h1
      split at h
      · cases h
      · rename_i fs1 h2
        split at h
        · cases h
        · rename_i s0a h3
          exact ⟨fs0, s1a, fs1, s0a, h0, h1, h2, h3, (Except.ok.inj h).symm⟩

/-- C7: `sync` is exactly two unconditional passes — pass 1 calls
`create_file` on st1 for every file st0 lists, pass 2 (after pass 1) the
reverse — with no existence or content check; syncing two ram stores
holding disjoint paths leaves both holding both paths; and syncing two
stores already holding an identical file still re-issues `create_file`
for it in both directions. -/
theorem c7_sync_two_pass_unconditional :
    (∀ {σ0 σ1 : Type} (st0 : StorageModel σ0) (st1 : StorageModel σ1) (s0 : σ0) (s1 : σ1)
       (fs0 fs1 : List MFile) (s1a : σ1) (s0a : σ0),
      st0.list_files s0 = .ok fs0 → createAll st1 s1 fs0 = .ok s1a →
      st1.list_files s1a = .ok fs1 → createAll st0 s0 fs1 = .ok s0a →
      sync st0 st1 s0 s1 =
        .ok (s0a, s1a, fs0.map SyncCall.toSt1 ++ fs1.map SyncCall.toSt0)) ∧
    (∀ (pa pb : Path) (fa fb : RamFile), fa.meta.path = pa → fb.meta.path = pb → pa ≠ pb →
      ∀ r0 r1 tr, sync ramModel ramModel [(pa, fa)] [(pb, fb)] = .ok (r0, r1, tr) →
        (ramHas r0 pa ∧ ramHas r0 pb) ∧ (ramHas r1 pa ∧ ramHas r1 pb)) ∧
    (∀ (pc : Path) (f : RamFile), f.meta.path = pc →
      ∀ r0 r1 tr, sync ramModel ramModel [(pc, f)] [(pc, f)] = .ok (r0, r1, tr) →
        SyncCall.toSt1 ⟨f.meta, .ok f.data⟩ ∈ tr ∧ SyncCall.toSt0 ⟨f.meta, .ok f.data⟩ ∈ tr) := by
  refine ⟨?_, ?_, ?_⟩
  · intro σ0 σ1 st0 st1 s0 s1 fs0 fs1 s1a s0a h0 h1 h2 h3
    simp only [sync, h0, h1, h2, h3]
  · intro pa pb fa fb hfa hfb hne r0 r1 tr hsync
    obtain ⟨fs0, s1a, fs1, s0a, h0, h1, h2, h3, hout⟩ :=
      sync_ok_elim ramModel ramModel _ _ _ hsync
    have hfs0 : fs0 = [⟨fa.meta, .ok fa.data⟩] := by
      have h4 : ramModel.list_files [(pa, fa)] = .ok [⟨fa.meta, .ok fa.data⟩] := rfl
      rw [h4] at h0
      exact (Except.ok.inj h0).symm
    subst hfs0
    have hr0 : r0 = s0a := (Prod.mk.inj hout).1
    have hr1 : r1 = s1a := congrArg Prod.fst (Prod.mk.inj hout).2
    rw [hr0, hr1]
    have hs1a_pa : ramHas s1a pa :=
      hfa ▸ createAll_ram_establishes _ _ _ h1 ⟨fa.meta, .ok fa.data⟩ (by simp)
    have hs1a_pb : ramHas s1a pb :=
      createAll_ram_preserves _ _ _ h1 pb ⟨fb, by simp, hfb⟩
    have hfs1 : fs1 = s1a.map fun e => ⟨e.2.meta, .ok e.2.data⟩ := by
      have h4 : ramModel.list_files s1a =
          .ok (s1a.map fun e => ⟨e.2.meta, .ok e.2.data⟩) := rfl
      rw [h4] at h2
      exact (Except.ok.inj h2).symm
    subst hfs1
    have hlist : ∀ p, ramHas s1a p →
        ∃ mf ∈ s1a.map (fun e => (⟨e.2.meta, .ok e.2.data⟩ : MFile)), mf.meta.path = p := by
      intro p h
      obtain ⟨g, hm, hg⟩ := h
      exact ⟨⟨g.meta, .ok g.data⟩, List.mem_map.mpr ⟨(p, g), hm, rfl⟩, hg⟩
    obtain ⟨mfa, hmfa, hmfa_p⟩ := hlist pa hs1a_pa
    obtain ⟨mfb, hmfb, hmfb_p⟩ := hlist pb hs1a_pb
    refine ⟨⟨?_, ?_⟩, hs1a_pa, hs1a_pb⟩
    · exact hmfa_p ▸ createAll_ram_establishes _ _ _ h3 mfa hmfa
    · exact hmfb_p ▸ createAll_ram_establishes _ _ _ h3 mfb hmfb
  · intro pc f hf r0 r1 tr hsync
    subst hf
    obtain ⟨fs0, s1a, fs1, s0a, h0, h1, h2, h3, hout⟩ :=
      sync_ok_elim ramModel ramModel _ _ _ hsync
    have hfs0 : fs0 = [⟨f.meta, .ok f.data⟩] := by
      have h4 : ramModel.list_files [(f.meta.path, f)] = .ok [⟨f.meta, .ok f.data⟩] := rfl
      rw [h4] at h0
      exact (Except.ok.inj h0).symm
    subst hfs0
    have hs1a : s1a = [(f.meta.path, ⟨f.meta, f.data⟩)] := by
      have h4 : createAll ramModel [(f.meta.path, f)] [⟨f.meta, .ok f.data⟩] =
          .ok [(f.meta.path, ⟨f.meta, f.data⟩)] := by
        simp [createAll, ramModel, ramInsert]
      rw [h4] at h1
      exact (Except.ok.inj h1).symm
    subst hs1a
    have hfs1 : fs1 = [⟨f.meta, .ok f.data⟩] := by
      have h4 : ramModel.list_files [(f.meta.path, (⟨f.meta, f.data⟩ : RamFile))] =
          .ok [⟨f.meta, .ok f.data⟩] := rfl
      rw [h4] at h2
      exact (Except.ok.inj h2).symm
    subst hfs1
    have htr : tr =
        [SyncCall.toSt1 ⟨f.meta, .ok f.data⟩, SyncCall.toSt0 ⟨f.meta, .ok f.data⟩] := by
      have := (Prod.mk.inj hout).2
      have h5 := congrArg Prod.snd this
      simpa using h5
    rw [htr]
    simp

/-- Witness for C7: the identical-file scenario at a concrete store. -/
theorem c7_sync_two_pass_unconditional_witness :
    ∀ r0 r1 tr,
      sync ramModel ramModel [((⟨["c"]⟩ : Path), (⟨⟨⟨["c"]⟩, sampleTs⟩, [7]⟩ : RamFile))]
          [((⟨["c"]⟩ : Path), (⟨⟨⟨["c"]⟩, sampleTs⟩, [7]⟩ : RamFile))] = .ok (r0, r1, tr) →
      SyncCall.toSt1 ⟨⟨⟨["c"]⟩, sampleTs⟩, .ok [7]⟩ ∈ tr ∧
        SyncCall.toSt0 ⟨⟨⟨["c"]⟩, sampleTs⟩, .ok [7]⟩ ∈ tr :=
  c7_sync_two_pass_unconditional.2.2 ⟨["c"]⟩ ⟨⟨⟨["c"]⟩, sampleTs⟩, [7]⟩ rfl

/-- C10: during one `sync` with a journal-backed st0 and a ram st1, pass
2 lists st1 only after pass 1 copied st0's files there, so every file st0
listed initially is passed back into st0's own `create_file`; and each
such journal-backed `create_file` appends one fresh content object and
one fresh single-record `CreateFile` segment to st0. -/
theorem c10_sync_passes_back_remote_files :
    (∀ (r0 : S3Run) (s1 : List (Path × RamFile)) (fs0 : List MFile)
       (r0a : S3Run) (r1a : List (Path × RamFile)) (tr : List SyncCall),
      s3Model.list_files r0 = .ok fs0 →
      sync s3Model ramModel r0 s1 = .ok (r0a, r1a, tr) →
      ∀ f0 ∈ fs0, ∃ mf, SyncCall.toSt0 mf ∈ tr ∧ mf.meta.path = f0.meta.path) ∧
    (∀ (r : S3Run) (f : MFile) (c : List Nat) (r2 : S3Run),
      f.content = .ok c →
      mintDataKey (r.supply r.idx).contentId ∉ r.s3.keys →
      mintJournalKey (r.supply r.idx).ts (r.supply r.idx).segId ∉ r.s3.keys →
      s3Model.create_file r f = .ok r2 →
      r2.s3.keys = r.s3.keys ++
          [mintDataKey (r.supply r.idx).contentId,
            mintJournalKey (r.supply r.idx).ts (r.supply r.idx).segId] ∧
        r2.s3.get (mintJournalKey (r.supply r.idx).ts (r.supply r.idx).segId) =
          .ok (encJournalFile ⟨[⟨.CreateFile f.meta (mintDataKey (r.supply r.idx).contentId),
            (r.supply r.idx).ts,
            mintJournalKey (r.supply r.idx).ts (r.supply r.idx).segId⟩]⟩) ∧
        r2.s3.get (mintDataKey (r.supply r.idx).contentId) = .ok c) := by
  constructor
  · intro r0 s1 fs0 r0a r1a tr hlist hsync
    obtain ⟨fs0b, s1a, fs1, s0a, h0, h1, h2, h3, hout⟩ :=
      sync_ok_elim s3Model ramModel _ _ _ hsync
    have hfs0 : fs0 = fs0b := by
      rw [hlist] at h0
      exact Except.ok.inj h0
    subst hfs0
    have hfs1 : fs1 = s1a.map fun e => ⟨e.2.meta, .ok e.2.data⟩ := by
      have h4 : ramModel.list_files s1a =
          .ok (s1a.map fun e => ⟨e.2.meta, .ok e.2.data⟩) := rfl
      rw [h4] at h2
      exact (Except.ok.inj h2).symm
    subst hfs1
    have htr : tr = fs0.map SyncCall.toSt1 ++
        (s1a.map fun e => (⟨e.2.meta, .ok e.2.data⟩ : MFile)).map SyncCall.toSt0 := by
      have h5 := congrArg Prod.snd (Prod.mk.inj hout).2
      simpa using h5
    intro f0 hf0
    have hhas : ramHas s1a f0.meta.path := createAll_ram_establishes _ _ _ h1 f0 hf0
    obtain ⟨g, hm, hg⟩ := hhas
    refine ⟨⟨g.meta, .ok g.data⟩, ?_, hg⟩
    rw [htr]
    refine List.mem_append_right _ (List.mem_map.mpr ⟨⟨g.meta, .ok g.data⟩, ?_, rfl⟩)
    exact List.mem_map.mpr ⟨(f0.meta.path, g), hm, rfl⟩
  · intro r f c r2 hc hdk hjk hcf
    have hcf2 : r2 = ⟨create_file r.s3 f.meta c (r.supply r.idx).ts (r.supply r.idx).contentId
        (r.supply r.idx).segId, r.supply, r.idx + 1⟩ := by
      simp only [s3Model, hc] at hcf
      exact (Except.ok.inj hcf).symm
    subst hcf2
    set m := r.supply r.idx with hm
    set dk := mintDataKey m.contentId with hdk2
    set jk := mintJournalKey m.ts m.segId with hjk2
    have hne : dk ≠ jk := mintDataKey_ne_mintJournalKey m.contentId m.ts m.segId
    have hk1 : (put_object r.s3 dk c).keys = r.s3.keys ++ [dk] := keys_put_new r.s3 dk c hdk
    have hjk1 : jk ∉ (put_object r.s3 dk c).keys := by
      intro hmem
      rcases (mem_keys_put r.s3 dk c jk).mp hmem with h | h
      · exact hjk h
      · exact hne h.symm
    refine ⟨?_, ?_, ?_⟩
    · show (put_object (put_object r.s3 dk c) jk _).keys = _
      rw [keys_put_new _ jk _ hjk1, hk1, List.append_assoc]
      rfl
    · exact get_put_self _ jk _
    · show (put_object (put_object r.s3 dk c) jk _).get dk = _
      rw [get_put_other _ jk _ dk hne, get_put_self]

/-- Witness for C10: one sync over a one-file remote store; the one file
is passed back into the remote `create_file` during pass 2. -/
theorem c10_sync_passes_back_remote_files_witness :
    ∃ r0a r1a tr, sync s3Model ramModel sampleRun [] = .ok (r0a, r1a, tr) ∧
      ∀ f0 ∈ sampleFs0, ∃ mf, SyncCall.toSt0 mf ∈ tr ∧ mf.meta.path = f0.meta.path :=
  ⟨_, _, _, rfl, c10_sync_passes_back_remote_files.1 sampleRun [] sampleFs0 _ _ _ rfl rfl⟩

end Asynq
